import Mathlib

set_option maxRecDepth 40000

/-!
Verification of the `midterm_440` numeric core (32-bit ALU, barrel shifter,
multiply/divide unit, binary32 FPU) against its natural-language specification.

The Python source represents machine words as Python lists of the integers
0 and 1, least-significant bit first.  We embed such words as `List Nat`
together with the validity predicate `Valid32` (length 32, every element at
most 1), and we translate each Python function into a Lean function of the
same name over these lists.  Hexadecimal strings appearing in Python trace
records are abstracted to the unsigned integers they print (the Python code
computes exactly `sum(bit << i)` before formatting).
-/

namespace Midterm440

/-- Numeric value of an LSB-first bit list: `lval [b0, b1, ...] = Σ bi·2^i`. -/

def lval : List Nat → Nat
  | [] => 0
  | b :: t => b + 2 * lval t

/-- All elements of the list are bits (0 or 1). -/

def Bitty (l : List Nat) : Prop := ∀ b ∈ l, b ≤ 1

instance (l : List Nat) : Decidable (Bitty l) := by
  unfold Bitty; infer_instance

/-- A valid 32-bit operand as checked by the Python sources: a list of
exactly 32 elements, each 0 or 1. -/
def Valid32 (l : List Nat) : Prop := l.length = 32 ∧ Bitty l

instance (l : List Nat) : Decidable (Valid32 l) := by
  unfold Valid32; infer_instance

/-! ### `bits.py`: conversion between unsigned 32-bit integers and bit lists -/

/-- The runtime validity check performed by `_validate_bits_32` /
`_check32` in the Python sources (they raise `ValueError` on failure). -/

def check32 (l : List Nat) : Bool :=
  l.length == 32 && l.all (fun b => b == 0 || b == 1)

/-- `u32_to_bits(value)`: bit `i` of the result is `(value >> i) & 1`
(LSB first).  The Python range check is not modelled; every use in the
development applies it to integers below `2^32`. -/

def u32_to_bits (v : Nat) : List Nat :=
  (List.range 32).map (fun i => v >>> i &&& 1)

/-- `bits_to_u32(bits)` reconstructs `sum(bit << i)`, i.e. exactly `lval`
on validated bit lists (the Python function `raise`s on malformed input;
validation is modelled separately at each call site via `check32`). -/

def bits_to_u32 (l : List Nat) : Nat := lval l

/-- Two's-complement (signed) reading of a 32-bit pattern, as specified for
`decode` in §4.2 of the spec: the unsigned value if bit 31 is clear, else
that value minus `2^32`. -/

def toSigned32 (l : List Nat) : Int :=
  if l.getD 31 0 = 1 then (lval l : Int) - 2 ^ 32 else (lval l : Int)

/-! ### `alu.py`: ripple-carry ADD/SUB with N, Z, C, V flags

The Python loop walks the two operand lists in lockstep carrying `cin`,
capturing the carry into and out of bit 31 for the V flag and recording one
trace row per position when tracing.  `rippleFull a b cin i` returns the sum
bits, the final carry, and the per-position rows (the Python hex strings are
abstracted to the integers they print). -/

/-- One per-bit trace row of `_add_bits_with_cin` (the `"iter"` dict). -/

structure AluIter where
  bit : Nat
  ai : Nat
  bi : Nat
  cin : Nat
  sum_bit : Nat
  cout : Nat
deriving DecidableEq, Repr, Inhabited

def rippleFull : List Nat → List Nat → Nat → Nat → List Nat × Nat × List AluIter
  | a0 :: as, b0 :: bs, cin, i =>
    let axb := a0 ^^^ b0
    let s := axb ^^^ cin
    let cout := (a0 &&& b0) ||| (cin &&& axb)
    let r := rippleFull as bs cout (i + 1)
    (s :: r.1, r.2.1, ⟨i, a0, b0, cin, s, cout⟩ :: r.2.2)
  | _, _, cin, _ => ([], cin, [])

/-- A trace record of the ALU (`"start"`, per-bit `"iter"`, `"finish"`). -/

inductive AluRow where
  | start (a b cin : Nat)
  | iter (r : AluIter)
  | finish (result N Z C V : Nat)
deriving DecidableEq, Repr

/-- Result payload of the ALU: the Python function returns either the
5-tuple `(sum_bits, N, Z, C, V)` (untraced) or a dict carrying the same
numeric fields plus the trace; both shapes are embedded as this record,
with `trace = []` when tracing is off (matching the information content). -/

structure AddOut where
  sum_bits : List Nat
  N : Nat
  Z : Nat
  C : Nat
  V : Nat
  trace : List AluRow
deriving DecidableEq, Repr

/-- `_add_bits_with_cin(a, b, cin0, trace=...)`.  The carries captured at
`i == 31` are read off the row recorded at position 31; for 32-bit operands
the Python variables `carry_into_msb` / `carry_out_msb` are exactly the
`cin` / `cout` fields of that row, and `C` is the carry left after the loop. -/

def _add_bits_with_cin (a b : List Nat) (cin0 : Nat) (trace : Bool) : AddOut :=
  let r := rippleFull a b cin0 0
  let out := r.1
  let C := r.2.1
  let rows := r.2.2
  let msbRow := rows.getD 31 default
  let N := out.getD 31 0
  let Z := if out.all (fun bit => bit == 0) then 1 else 0
  let V := if msbRow.cin ≠ msbRow.cout then 1 else 0
  { sum_bits := out, N := N, Z := Z, C := C, V := V,
    trace := if trace then
        AluRow.start (lval a) (lval b) cin0 :: rows.map AluRow.iter
          ++ [AluRow.finish (lval out) N Z C V]
      else [] }

/-- `add_bits(a, b, trace=...)`: validate, then ripple with carry-in 0. -/

def add_bits (a b : List Nat) (trace : Bool) : Except String AddOut :=
  if check32 a && check32 b then .ok (_add_bits_with_cin a b 0 trace)
  else .error "a and b must be 32 bits long"

/-- `_invert_bits(bits)`: bitwise NOT of a 0/1 list. -/

def _invert_bits (l : List Nat) : List Nat :=
  l.map (fun b => if b == 1 then 0 else 1)

/-- `sub_bits(a, b, trace=...)`: `a + (~b) + 1`. -/

def sub_bits (a b : List Nat) (trace : Bool) : Except String AddOut :=
  if check32 a && check32 b then .ok (_add_bits_with_cin a (_invert_bits b) 1 trace)
  else .error "a and b must be 32 bits long"

/-! ### `shifter.py`: barrel shifter (SLL, SRL, SRA) -/

/-- `_shift_left_by_k`: `out[i] = src[i-k] if i >= k else fill`. -/
def _shift_left_by_k (src : List Nat) (k : Nat) (fill : Nat) : List Nat :=
  (List.range 32).map (fun i => if k ≤ i then src.getD (i - k) 0 else fill)

/-- `_shift_right_by_k`: `out[i] = src[i+k] if i+k < 32 else fill`. -/
def _shift_right_by_k (src : List Nat) (k : Nat) (fill : Nat) : List Nat :=
  (List.range 32).map (fun i => if i + k < 32 then src.getD (i + k) 0 else fill)

/-- `enumerate(stages)` for the 32-bit barrel cascade `(1, 2, 4, 8, 16)`. -/
def shiftStages : List (Nat × Nat) := [(0, 1), (1, 2), (2, 4), (3, 8), (4, 16)]

def sll_core (bits : List Nat) (k : Nat) : List Nat :=
  shiftStages.foldl
    (fun out p => if (k >>> p.1) &&& 1 == 1 then _shift_left_by_k out p.2 0 else out) bits

def srl_core (bits : List Nat) (k : Nat) : List Nat :=
  shiftStages.foldl
    (fun out p => if (k >>> p.1) &&& 1 == 1 then _shift_right_by_k out p.2 0 else out) bits

def sra_core (bits : List Nat) (k : Nat) : List Nat :=
  let sign := bits.getD 31 0
  shiftStages.foldl
    (fun out p => if (k >>> p.1) &&& 1 == 1 then _shift_right_by_k out p.2 sign else out) bits

/-- `sll_bits(bits, shamt)`.  `shamt` is modelled as `Nat`; the Python
`_validate_shamt` additionally rejects negative ints, which have no
counterpart here. -/
def sll_bits (bits : List Nat) (shamt : Nat) : Except String (List Nat) :=
  if check32 bits then
    if shamt ≤ 31 then .ok (sll_core bits shamt) else .error "shamt must be in 0..31"
  else .error "bits must have length 32"

def srl_bits (bits : List Nat) (shamt : Nat) : Except String (List Nat) :=
  if check32 bits then
    if shamt ≤ 31 then .ok (srl_core bits shamt) else .error "shamt must be in 0..31"
  else .error "bits must have length 32"

def sra_bits (bits : List Nat) (shamt : Nat) : Except String (List Nat) :=
  if check32 bits then
    if shamt ≤ 31 then .ok (sra_core bits shamt) else .error "shamt must be in 0..31"
  else .error "bits must have length 32"

/-! ### `mdu.py`: shift-add multiplier and restoring divider -/

/-- `_not_bits(bits)`. -/
def _not_bits (l : List Nat) : List Nat :=
  l.map (fun b => if b == 1 then 0 else 1)

/-- `_add_n(a, b)`: same-length ripple add with carry-in 0, returning
`(sum_bits, carry_out)` (the row bookkeeping of the shared full-adder
recursion is simply dropped). -/
def _add_n (a b : List Nat) : List Nat × Nat :=
  let r := rippleFull a b 0 0
  (r.1, r.2.1)

/-- `_sub_n(a, b) = a + (~b + 1)`, with `borrow = 1 - carry_out`. -/
def _sub_n (a b : List Nat) : List Nat × Nat :=
  let t := _add_n a (_not_bits b)
  let d := _add_n t.1 (1 :: List.replicate (a.length - 1) 0)
  (d.1, if d.2 == 1 then 0 else 1)

/-- One barrel stage of `_sll_n` (the inner `tmp` loop). -/
def _stage_left_n (out : List Nat) (st : Nat) : List Nat :=
  (List.range out.length).map (fun i => if st ≤ i then out.getD (i - st) 0 else 0)

/-- `enumerate(stages)` for the 64-bit cascade `(1, 2, 4, 8, 16, 32, 64)`. -/
def mulStages : List (Nat × Nat) :=
  [(0, 1), (1, 2), (2, 4), (3, 8), (4, 16), (5, 32), (6, 64)]

def _sll_n (bits : List Nat) (k : Nat) : List Nat :=
  mulStages.foldl
    (fun out p => if (k >>> p.1) &&& 1 == 1 then _stage_left_n out p.2 else out) bits

/-- `_sign_extend_to_64(x)`: append 32 copies of `x[31]`. -/
def _sign_extend_to_64 (x : List Nat) : List Nat :=
  x ++ List.replicate 32 (x.getD 31 0)

/-- `_twos_neg(bits) = ~bits + 1`. -/
def _twos_neg (l : List Nat) : List Nat :=
  (_add_n (_not_bits l) (1 :: List.replicate (l.length - 1) 0)).1

/-- `_is_zero(bits)`. -/
def _is_zero (l : List Nat) : Bool := l.all (fun b => b == 0)

/-- `_abs_sign(bits)`: `(abs_bits, sign)` for two's-complement input. -/
def _abs_sign (l : List Nat) : List Nat × Nat :=
  if l.getD 31 0 == 1 then (_twos_neg l, 1) else (l, 0)

/-- `_clip32(x) = x[:32]`. -/
def _clip32 (l : List Nat) : List Nat := l.take 32

/-- One trace row of the multiplier (`step`, `mul_bit`, `added`, plus the
accumulator halves as the integers the Python hex strings print). -/
structure MulRow where
  step : Nat
  mul_bit : Nat
  added : Nat
  acc_low32 : Nat
  acc_hi32 : Nat
deriving DecidableEq

structure MulOut where
  rd_bits : List Nat
  overflow : Nat
  trace : List MulRow
deriving DecidableEq

/-- Body of the multiplier's `for i in range(32)` loop. -/
def mulStep (a64 b32 : List Nat) (tr : Bool) (s : List Nat × List MulRow) (i : Nat) :
    List Nat × List MulRow :=
  let add_now := b32.getD i 0 == 1
  let acc := if add_now then (_add_n s.1 (_sll_n a64 i)).1 else s.1
  (acc,
    if tr then
      s.2 ++ [⟨i, b32.getD i 0, if add_now then 1 else 0,
        bits_to_u32 (acc.take 32), bits_to_u32 (acc.drop 32)⟩]
    else s.2)

def mul_shift_add_core (rs1_bits rs2_bits : List Nat) (tr : Bool) : MulOut :=
  let a64 := _sign_extend_to_64 rs1_bits
  let b32 := rs2_bits
  let fin := (List.range 32).foldl (mulStep a64 b32 tr) (List.replicate 64 0, [])
  let rd_bits := fin.1.take 32
  let sign32 := rd_bits.getD 31 0
  let overflow :=
    if (List.range' 32 32).any (fun j => !(fin.1.getD j 0 == sign32)) then 1 else 0
  ⟨rd_bits, overflow, fin.2⟩

/-- `mul_shift_add(rs1_bits, rs2_bits, trace=...)`. -/
def mul_shift_add (rs1_bits rs2_bits : List Nat) (trace : Bool) : Except String MulOut :=
  if check32 rs1_bits && check32 rs2_bits then
    .ok (mul_shift_add_core rs1_bits rs2_bits trace)
  else .error "need 32 bits"

/-- A trace record of the divider.  The Python `finish` dict on the
divide-by-zero path carries no `flags` entry, hence the dedicated
`finishNoFlags` constructor. -/
inductive DivRow where
  | start (dividend divisor : Nat) (sgnd : Bool)
  | iter (step qb rtop q : Nat)
  | finishNoFlags (q r : Nat)
  | finish (q r div_by_zero overflow : Nat)
deriving DecidableEq

structure DivFlags where
  div_by_zero : Nat
  overflow : Nat
deriving DecidableEq

structure DivOut where
  q_bits : List Nat
  r_bits : List Nat
  flags : DivFlags
  trace : List DivRow
deriving DecidableEq

/-- Body of the divider's `for step in range(32)` loop: shift `(R, Q)`
left one position, tentatively subtract the 33-bit divisor, restore on
borrow and set the new quotient bit. -/
def divLoopStep (D33 : List Nat) (tr : Bool)
    (s : List Nat × List Nat × List DivRow) (step : Nat) :
    List Nat × List Nat × List DivRow :=
  let R := s.1
  let Q := s.2.1
  let msb_q := Q.getD 31 0
  let R1 := msb_q :: R.take 32
  let Q1 := 0 :: Q.take 31
  let t := _sub_n R1 D33
  let restore := t.1.getD 32 0 == 1
  let R2 := if restore then R1 else t.1
  let qb := if restore then 0 else 1
  let Q2 := Q1.set 0 qb
  (R2, Q2,
    if tr then s.2.2 ++ [.iter step qb (bits_to_u32 (R2.drop 1)) (bits_to_u32 Q2)]
    else s.2.2)

def div_restoring_core (dividend_bits divisor_bits : List Nat) (signed tr : Bool) :
    DivOut :=
  let startRow := DivRow.start (bits_to_u32 dividend_bits) (bits_to_u32 divisor_bits) signed
  if _is_zero divisor_bits then
    let q_bits := List.replicate 32 1
    let r_bits := dividend_bits
    { q_bits := q_bits, r_bits := r_bits, flags := ⟨1, 0⟩,
      trace := if tr then
          [startRow, .finishNoFlags (bits_to_u32 q_bits) (bits_to_u32 r_bits)]
        else [] }
  else if signed && (bits_to_u32 dividend_bits == 0x80000000)
      && (bits_to_u32 divisor_bits == 0xFFFFFFFF) then
    let q_bits := u32_to_bits 0x80000000
    let r_bits := u32_to_bits 0
    { q_bits := q_bits, r_bits := r_bits, flags := ⟨0, 1⟩,
      trace := if tr then
          [startRow, .finish (bits_to_u32 q_bits) (bits_to_u32 r_bits) 0 1]
        else [] }
  else
    let da := if signed then _abs_sign dividend_bits else (dividend_bits, 0)
    let db := if signed then _abs_sign divisor_bits else (divisor_bits, 0)
    let q_sign := if signed then da.2 ^^^ db.2 else 0
    let D33 := db.1 ++ [0]
    let fin := (List.range 32).foldl (divLoopStep D33 tr) (List.replicate 33 0, da.1, [])
    let R := fin.1
    let Q := fin.2.1
    let q_u := if signed && (q_sign == 1) then _twos_neg Q else Q
    let r0 := R.take 32
    let r_u :=
      if signed && (dividend_bits.getD 31 0 == 1) && !(_is_zero r0) then _twos_neg r0
      else r0
    let q_bits := _clip32 q_u
    let r_bits := _clip32 r_u
    { q_bits := q_bits, r_bits := r_bits, flags := ⟨0, 0⟩,
      trace := if tr then
          startRow :: fin.2.2
            ++ [.finish (bits_to_u32 q_bits) (bits_to_u32 r_bits) 0 0]
        else [] }

/-- `div_restoring(dividend_bits, divisor_bits, signed, trace=...)`. -/
def div_restoring (dividend_bits divisor_bits : List Nat) (signed trace : Bool) :
    Except String DivOut :=
  if check32 dividend_bits && check32 divisor_bits then
    .ok (div_restoring_core dividend_bits divisor_bits signed trace)
  else .error "need 32 bits"

/-- Recognises the per-iteration rows of a divider trace. -/
def isIterRow : DivRow → Bool
  | .iter _ _ _ _ => true
  | _ => false

/-- The accumulator update of one multiplier iteration (the trace-free
projection of `mulStep`; the two agree definitionally on the first
component). -/
def mulAccStep (a64 b32 : List Nat) (acc : List Nat) (i : Nat) : List Nat :=
  if b32.getD i 0 == 1 then (_add_n acc (_sll_n a64 i)).1 else acc

/-- The `(R, Q)` update of one divider iteration (the trace-free
projection of `divLoopStep`). -/
def divStepP (D33 : List Nat) (rq : List Nat × List Nat) : List Nat × List Nat :=
  let R := rq.1
  let Q := rq.2
  let msb_q := Q.getD 31 0
  let R1 := msb_q :: R.take 32
  let Q1 := 0 :: Q.take 31
  let t := _sub_n R1 D33
  let restore := t.1.getD 32 0 == 1
  let R2 := if restore then R1 else t.1
  let qb := if restore then 0 else 1
  (R2, Q1.set 0 qb)

/-- Reading of a 32-bit pattern under an operation's signed or unsigned
convention (§8 of the spec, "Division laws"). -/
def interp (signed : Bool) (l : List Nat) : Int :=
  if signed then toSigned32 l else (lval l : Int)

/-! ### `fpu_f32.py`: binary32 unpack and host-backed add/sub/mul

The Python FPU unpacks both operands to host doubles, performs the host
operation and re-packs with `struct.pack('!f', ...)`.  Every binary32
value is an exact double, so unpacked finite operands are embedded as
exact rationals; NaN/infinity propagation of the host double arithmetic
is embedded by cases on the extended value `EF`.  (The double rounding of
an in-range finite result is exact for every value this development
evaluates; the `struct.pack` overflow threshold `2^128` is modelled
exactly.)  `struct.pack('!f')` raises `OverflowError` on any finite
double whose rounded value reaches `2^128`; that exception is the
`Except.error` branch of `packHostBits`. -/

inductive EF where
  | nan
  | inf (neg : Bool)
  | fin (q : ℚ)
deriving DecidableEq

def isNanEF : EF → Bool
  | .nan => true
  | _ => false

def isInfEF : EF → Bool
  | .inf _ => true
  | _ => false

/-- `math.isfinite` on the embedded value. -/
def isFiniteEF : EF → Bool
  | .fin _ => true
  | _ => false

/-- `res == 0.0` on the embedded value (both host zeros compare equal). -/
def isZeroEF : EF → Bool
  | .fin q => q == 0
  | _ => false

/-- `_classify_from_fields(sign, exp, frac)`. -/
def _classify_from_fields (_sign e f : Nat) : String :=
  if e == 0xFF then (if f == 0 then "inf" else "nan")
  else if e == 0x00 then (if f == 0 then "zero" else "subnormal")
  else "normal"

/-- The exact value of a binary32 pattern, as recovered by `unpack_f32`
through the host (`struct.unpack('!f', ...)`). -/
def unpackVal (l : List Nat) : EF :=
  let u := bits_to_u32 l
  let s := (u >>> 31) &&& 1
  let e := (u >>> 23) &&& 0xFF
  let f := u &&& 0x7FFFFF
  if e == 0xFF then (if f == 0 then .inf (s == 1) else .nan)
  else if e == 0 then
    .fin ((if s == 1 then (-1 : ℚ) else 1) * (f : ℚ) * (2 : ℚ) ^ (-149 : Int))
  else
    .fin ((if s == 1 then (-1 : ℚ) else 1) * ((2 ^ 23 + f : Nat) : ℚ)
      * (2 : ℚ) ^ ((e : Int) - 150))

/-- IEEE-754 double addition on the unpacked values (NaN/∞ propagation;
the finite case is exact because two binary32 operands add exactly in
double precision whenever the claims below evaluate it). -/
def addEF : EF → EF → EF
  | .nan, _ => .nan
  | _, .nan => .nan
  | .inf s, .inf t => if s == t then .inf s else .nan
  | .inf s, .fin _ => .inf s
  | .fin _, .inf t => .inf t
  | .fin x, .fin y => .fin (x + y)

def subEF : EF → EF → EF
  | .nan, _ => .nan
  | _, .nan => .nan
  | .inf s, .inf t => if s == t then .nan else .inf s
  | .inf s, .fin _ => .inf s
  | .fin _, .inf t => .inf (!t)
  | .fin x, .fin y => .fin (x - y)

def mulEF : EF → EF → EF
  | .nan, _ => .nan
  | _, .nan => .nan
  | .inf s, .inf t => .inf (Bool.xor s t)
  | .inf s, .fin y => if y == 0 then .nan else .inf (Bool.xor s (decide (y < 0)))
  | .fin x, .inf t => if x == 0 then .nan else .inf (Bool.xor (decide (x < 0)) t)
  | .fin x, .fin y => .fin (x * y)

structure FFlags where
  overflow : Nat
  underflow : Nat
  invalid : Nat
deriving DecidableEq

/-- `_flags_from_result(a, b, res)`. -/
def _flags_from_result (a b res : EF) : FFlags :=
  let invalid := if isNanEF a || isNanEF b || isNanEF res then 1 else 0
  let overflow := if isFiniteEF a && isFiniteEF b && isInfEF res then 1 else 0
  let underflow :=
    if isZeroEF res && isFiniteEF a && isFiniteEF b
        && (!(isZeroEF a) || !(isZeroEF b)) then 1
    else 0
  ⟨overflow, underflow, invalid⟩

/-- Round half to even to an integer. -/
def rneInt (x : ℚ) : Int :=
  let f := Int.floor x
  let r := x - f
  if r < 1 / 2 then f
  else if 1 / 2 < r then f + 1
  else if f % 2 = 0 then f else f + 1

/-- Round a nonzero rational to the binary32 value grid (round to
nearest, ties to even; unbounded above — the caller applies the `2^128`
overflow threshold of the host `struct.pack`). -/
def roundF32 (q : ℚ) : ℚ :=
  let e := Int.log 2 |q|
  let step := max (e - 23) (-149)
  ((rneInt (q / (2 : ℚ) ^ step) : ℚ)) * (2 : ℚ) ^ step

/-- Bit pattern of a representable (already rounded, in-range) binary32
value; only evaluated by the claims on special values. -/
def f32BitsOfVal (r : ℚ) : List Nat :=
  if r = 0 then u32_to_bits 0
  else
    let s : Nat := if r < 0 then 1 else 0
    let m : Nat := (|r| * 2 ^ 149).num.toNat
    if m < 2 ^ 23 then u32_to_bits ((s <<< 31) ||| m)
    else
      let e := Int.log 2 |r|
      let mm : Nat := (|r| * (2 : ℚ) ^ ((23 : Int) - e)).num.toNat
      let E : Nat := (e + 127).toNat
      u32_to_bits ((s <<< 31) ||| (E <<< 23) ||| (mm - 2 ^ 23))

/-- `_wrap_result`'s conversion of the host double to binary32 bits:
`struct.pack('!f', res)`, which raises `OverflowError` when the rounded
magnitude reaches `2^128`.  NaN packs to the canonical quiet pattern. -/
def packHostBits : EF → Except String (List Nat)
  | .nan => .ok (u32_to_bits 0x7FC00000)
  | .inf neg => .ok (u32_to_bits (if neg then 0xFF800000 else 0x7F800000))
  | .fin q =>
    if q = 0 then .ok (u32_to_bits 0)
    else
      let r := roundF32 q
      if (2 : ℚ) ^ (128 : Nat) ≤ |r| then
        .error "OverflowError: float too large to pack with f format"
      else .ok (f32BitsOfVal r)

structure FTrace where
  op : String
  a_u32 : Nat
  b_u32 : Nat
  res_u32 : Nat
deriving DecidableEq

structure FOut where
  res_bits : List Nat
  flags : FFlags
  trace : List FTrace
deriving DecidableEq

/-- `fadd_f32(a_bits, b_bits)`; `bits_to_u32` performs the validation. -/
def fadd_f32 (a_bits b_bits : List Nat) : Except String FOut :=
  if check32 a_bits && check32 b_bits then
    let a := unpackVal a_bits
    let b := unpackVal b_bits
    let res := addEF a b
    match packHostBits res with
    | .error e => .error e
    | .ok bits =>
      .ok { res_bits := bits, flags := _flags_from_result a b res,
            trace := [⟨"add", bits_to_u32 a_bits, bits_to_u32 b_bits, bits_to_u32 bits⟩] }
  else .error "bits must contain exactly 32 elements"

def fsub_f32 (a_bits b_bits : List Nat) : Except String FOut :=
  if check32 a_bits && check32 b_bits then
    let a := unpackVal a_bits
    let b := unpackVal b_bits
    let res := subEF a b
    match packHostBits res with
    | .error e => .error e
    | .ok bits =>
      .ok { res_bits := bits, flags := _flags_from_result a b res,
            trace := [⟨"sub", bits_to_u32 a_bits, bits_to_u32 b_bits, bits_to_u32 bits⟩] }
  else .error "bits must contain exactly 32 elements"

def fmul_f32 (a_bits b_bits : List Nat) : Except String FOut :=
  if check32 a_bits && check32 b_bits then
    let a := unpackVal a_bits
    let b := unpackVal b_bits
    let res := mulEF a b
    match packHostBits res with
    | .error e => .error e
    | .ok bits =>
      .ok { res_bits := bits, flags := _flags_from_result a b res,
            trace := [⟨"mul", bits_to_u32 a_bits, bits_to_u32 b_bits, bits_to_u32 bits⟩] }
  else .error "bits must contain exactly 32 elements"

/-! ## Theorems -/

@[simp] theorem lval_nil : lval [] = 0 := rfl

@[simp] theorem lval_cons (b : Nat) (t : List Nat) : lval (b :: t) = b + 2 * lval t := rfl

theorem bitty_nil : Bitty [] := by intro b h; cases h

theorem bitty_cons {b : Nat} {t : List Nat} (hb : b ≤ 1) (ht : Bitty t) :
    Bitty (b :: t) := by
  intro x hx
  rcases List.mem_cons.mp hx with h | h
  · exact h ▸ hb
  · exact ht x h

theorem bitty_of_cons {b : Nat} {t : List Nat} (h : Bitty (b :: t)) :
    b ≤ 1 ∧ Bitty t := by
  constructor
  · exact h b (List.mem_cons_self b t)
  · intro x hx; exact h x (List.mem_cons_of_mem b hx)

theorem bitty_append {s t : List Nat} (hs : Bitty s) (ht : Bitty t) :
    Bitty (s ++ t) := by
  intro x hx
  rcases List.mem_append.mp hx with h | h
  · exact hs x h
  · exact ht x h

theorem bitty_take {l : List Nat} (h : Bitty l) (k : Nat) : Bitty (l.take k) := by
  intro x hx; exact h x (List.mem_of_mem_take hx)

theorem bitty_drop {l : List Nat} (h : Bitty l) (k : Nat) : Bitty (l.drop k) := by
  intro x hx; exact h x (List.mem_of_mem_drop hx)

theorem bitty_replicate (n c : Nat) (hc : c ≤ 1) : Bitty (List.replicate n c) := by
  intro x hx
  rw [List.eq_of_mem_replicate hx]; exact hc

theorem lval_append (s t : List Nat) :
    lval (s ++ t) = lval s + 2 ^ s.length * lval t := by
  induction s with
  | nil => simp
  | cons b s ih => simp [ih, Nat.pow_succ]; ring

@[simp] theorem lval_replicate_zero (n : Nat) : lval (List.replicate n 0) = 0 := by
  induction n with
  | zero => rfl
  | succ n ih => simp [List.replicate_succ, ih]

theorem lval_replicate_one (n : Nat) : lval (List.replicate n 1) = 2 ^ n - 1 := by
  induction n with
  | zero => rfl
  | succ n ih =>
    have h1 : 1 ≤ 2 ^ n := Nat.one_le_two_pow
    simp [List.replicate_succ, ih, Nat.pow_succ]
    omega

theorem lval_lt (l : List Nat) (h : Bitty l) : lval l < 2 ^ l.length := by
  induction l with
  | nil => simp
  | cons b t ih =>
    obtain ⟨hb, ht⟩ := bitty_of_cons h
    have := ih ht
    simp [Nat.pow_succ]
    omega

theorem lval_take (l : List Nat) (h : Bitty l) (k : Nat) :
    lval (l.take k) = lval l % 2 ^ k := by
  have hsplit : l = l.take k ++ l.drop k := (List.take_append_drop k l).symm
  rcases le_or_lt k l.length with hk | hk
  · have hlen : (l.take k).length = k := List.length_take_of_le hk
    have hv : lval l = lval (l.take k) + 2 ^ k * lval (l.drop k) := by
      conv_lhs => rw [hsplit]
      rw [lval_append, hlen]
    have hlt : lval (l.take k) < 2 ^ k := by
      have := lval_lt (l.take k) (bitty_take h k)
      rwa [hlen] at this
    rw [hv, Nat.add_mul_mod_self_left, Nat.mod_eq_of_lt hlt]
  · have : l.take k = l := List.take_of_length_le (Nat.le_of_lt hk)
    rw [this]
    have hlt : lval l < 2 ^ k :=
      Nat.lt_of_lt_of_le (lval_lt l h) (Nat.pow_le_pow_right (by omega) (Nat.le_of_lt hk))
    exact (Nat.mod_eq_of_lt hlt).symm

theorem lval_getD (l : List Nat) (h : Bitty l) (i : Nat) :
    l.getD i 0 = lval l / 2 ^ i % 2 := by
  induction l generalizing i with
  | nil => simp
  | cons b t ih =>
    obtain ⟨hb, ht⟩ := bitty_of_cons h
    cases i with
    | zero =>
      simp [List.getD]
      omega
    | succ i =>
      have : (b + 2 * lval t) / 2 ^ (i + 1) = lval t / 2 ^ i := by
        rw [Nat.pow_succ, Nat.mul_comm (2 ^ i) 2, ← Nat.div_div_eq_div_mul]
        congr 1
        omega
      simpa [List.getD, this] using ih ht i

theorem lval_inj {l m : List Nat} (hl : Bitty l) (hm : Bitty m)
    (hlen : l.length = m.length) (hv : lval l = lval m) : l = m := by
  induction l generalizing m with
  | nil =>
    cases m with
    | nil => rfl
    | cons c s => simp at hlen
  | cons b t ih =>
    cases m with
    | nil => simp at hlen
    | cons c s =>
      obtain ⟨hb, ht⟩ := bitty_of_cons hl
      obtain ⟨hc, hs⟩ := bitty_of_cons hm
      simp only [lval_cons] at hv
      have hbc : b = c ∧ lval t = lval s := by omega
      have := ih ht hs (by simpa using hlen) hbc.2
      simp [hbc.1, this]

theorem lval_eq_zero_iff (l : List Nat) (h : Bitty l) :
    lval l = 0 ↔ ∀ b ∈ l, b = 0 := by
  induction l with
  | nil => simp
  | cons b t ih =>
    obtain ⟨hb, ht⟩ := bitty_of_cons h
    simp only [lval_cons, List.mem_cons]
    constructor
    · intro h0
      have hb0 : b = 0 := by omega
      have ht0 : lval t = 0 := by omega
      intro x hx
      rcases hx with rfl | hx
      · exact hb0
      · exact ((ih ht).mp ht0) x hx
    · intro hall
      have hb0 : b = 0 := hall b (Or.inl rfl)
      have ht0 : lval t = 0 := (ih ht).mpr (fun x hx => hall x (Or.inr hx))
      omega

/-- `a % 2^(n+1)` decomposes into the low `n` bits plus bit `n`. -/
theorem mod_two_pow_succ (a n : Nat) :
    a % 2 ^ (n + 1) = a % 2 ^ n + 2 ^ n * (a / 2 ^ n % 2) := by
  rw [Nat.pow_succ, Nat.mod_mul]

theorem check32_eq_true {l : List Nat} : check32 l = true ↔ Valid32 l := by
  simp only [check32, Valid32, Bitty, Bool.and_eq_true, beq_iff_eq, List.all_eq_true,
    Bool.or_eq_true]
  constructor
  · rintro ⟨h1, h2⟩
    refine ⟨h1, fun b hb => ?_⟩
    rcases h2 b hb with h | h <;> omega
  · rintro ⟨h1, h2⟩
    refine ⟨h1, fun b hb => ?_⟩
    have := h2 b hb
    omega

theorem length_u32_to_bits (v : Nat) : (u32_to_bits v).length = 32 := by
  simp [u32_to_bits]

theorem bitty_u32_to_bits (v : Nat) : Bitty (u32_to_bits v) := by
  intro b hb
  simp only [u32_to_bits, List.mem_map] at hb
  obtain ⟨i, _, rfl⟩ := hb
  have : v >>> i &&& 1 = v >>> i % 2 := Nat.and_one_is_mod (v >>> i)
  omega

theorem lval_map_range_shift (v n : Nat) :
    lval ((List.range n).map (fun i => v >>> i &&& 1)) = v % 2 ^ n := by
  induction n with
  | zero => simp [Nat.mod_one]
  | succ n ih =>
    rw [List.range_succ, List.map_append, lval_append, ih]
    simp only [List.map_cons, List.map_nil, List.length_map, List.length_range]
    have h1 : v >>> n &&& 1 = v / 2 ^ n % 2 := by
      rw [Nat.and_one_is_mod, Nat.shiftRight_eq_div_pow]
    rw [mod_two_pow_succ v n, h1]
    simp [lval]

theorem lval_u32_to_bits (v : Nat) (h : v < 2 ^ 32) : lval (u32_to_bits v) = v := by
  rw [u32_to_bits, lval_map_range_shift, Nat.mod_eq_of_lt h]

theorem valid32_u32_to_bits (v : Nat) : Valid32 (u32_to_bits v) :=
  ⟨length_u32_to_bits v, bitty_u32_to_bits v⟩

theorem u32_to_bits_lval {l : List Nat} (h : Valid32 l) : u32_to_bits (lval l) = l := by
  refine lval_inj (bitty_u32_to_bits _) h.2 (by rw [length_u32_to_bits, h.1]) ?_
  rw [lval_u32_to_bits]
  have := lval_lt l h.2
  rwa [h.1] at this

theorem toSigned32_emod (l : List Nat) :
    (toSigned32 l) % (2 ^ 32 : Int) = (lval l : Int) % 2 ^ 32 := by
  unfold toSigned32
  split
  · omega
  · rfl

theorem fullAdder_arith {x y c : Nat} (hx : x ≤ 1) (hy : y ≤ 1) (hc : c ≤ 1) :
    ((x ^^^ y) ^^^ c) + 2 * ((x &&& y) ||| (c &&& (x ^^^ y))) = x + y + c := by
  interval_cases x <;> interval_cases y <;> interval_cases c <;> decide

theorem fullAdder_bits {x y c : Nat} (hx : x ≤ 1) (hy : y ≤ 1) (hc : c ≤ 1) :
    (x ^^^ y) ^^^ c ≤ 1 ∧ (x &&& y) ||| (c &&& (x ^^^ y)) ≤ 1 := by
  interval_cases x <;> interval_cases y <;> interval_cases c <;> decide

theorem rippleFull_sum_length (a b : List Nat) (cin i : Nat)
    (h : a.length = b.length) :
    (rippleFull a b cin i).1.length = a.length := by
  induction a generalizing b cin i with
  | nil => cases b <;> simp [rippleFull]
  | cons a0 as ih =>
    cases b with
    | nil => simp at h
    | cons b0 bs =>
      simp only [rippleFull, List.length_cons]
      rw [ih bs _ _ (by simpa using h)]

theorem rippleFull_rows_length (a b : List Nat) (cin i : Nat)
    (h : a.length = b.length) :
    (rippleFull a b cin i).2.2.length = a.length := by
  induction a generalizing b cin i with
  | nil => cases b <;> simp [rippleFull]
  | cons a0 as ih =>
    cases b with
    | nil => simp at h
    | cons b0 bs =>
      simp only [rippleFull, List.length_cons]
      rw [ih bs _ _ (by simpa using h)]

theorem rippleFull_bitty (a b : List Nat) (cin i : Nat)
    (h : a.length = b.length) (ha : Bitty a) (hb : Bitty b) (hc : cin ≤ 1) :
    Bitty (rippleFull a b cin i).1 ∧ (rippleFull a b cin i).2.1 ≤ 1 := by
  induction a generalizing b cin i with
  | nil => cases b <;> exact ⟨bitty_nil, hc⟩
  | cons a0 as ih =>
    cases b with
    | nil => simp at h
    | cons b0 bs =>
      obtain ⟨ha0, has⟩ := bitty_of_cons ha
      obtain ⟨hb0, hbs⟩ := bitty_of_cons hb
      obtain ⟨hs, hco⟩ := fullAdder_bits ha0 hb0 hc
      obtain ⟨ih1, ih2⟩ := ih bs _ (i + 1) (by simpa using h) has hbs hco
      exact ⟨bitty_cons hs ih1, ih2⟩

theorem rippleFull_val (a b : List Nat) (cin i : Nat)
    (h : a.length = b.length) (ha : Bitty a) (hb : Bitty b) (hc : cin ≤ 1) :
    lval (rippleFull a b cin i).1 + 2 ^ a.length * (rippleFull a b cin i).2.1
      = lval a + lval b + cin := by
  induction a generalizing b cin i with
  | nil => cases b <;> simp [rippleFull] at h ⊢
  | cons a0 as ih =>
    cases b with
    | nil => simp at h
    | cons b0 bs =>
      obtain ⟨ha0, has⟩ := bitty_of_cons ha
      obtain ⟨hb0, hbs⟩ := bitty_of_cons hb
      have hco : (a0 &&& b0) ||| (cin &&& (a0 ^^^ b0)) ≤ 1 := (fullAdder_bits ha0 hb0 hc).2
      have hstep := fullAdder_arith ha0 hb0 hc
      have ihv := ih bs ((a0 &&& b0) ||| (cin &&& (a0 ^^^ b0))) (i + 1)
        (by simpa using h) has hbs hco
      simp only [rippleFull, lval_cons, List.length_cons, Nat.pow_succ]
      rw [show 2 ^ as.length * 2
            * (rippleFull as bs ((a0 &&& b0) ||| (cin &&& (a0 ^^^ b0))) (i + 1)).2.1
          = 2 * (2 ^ as.length
            * (rippleFull as bs ((a0 &&& b0) ||| (cin &&& (a0 ^^^ b0))) (i + 1)).2.1)
        from by ring]
      generalize 2 ^ as.length
          * (rippleFull as bs ((a0 &&& b0) ||| (cin &&& (a0 ^^^ b0))) (i + 1)).2.1 = M at ihv ⊢
      omega

/-- Splitting the ripple at the last position: everything about the rows
and carries of a chain over `as ++ [x]`. -/
theorem rippleFull_append_last (as bs : List Nat) (x y cin i : Nat)
    (h : as.length = bs.length) :
    rippleFull (as ++ [x]) (bs ++ [y]) cin i =
      let r := rippleFull as bs cin i
      let c := r.2.1
      let s := (x ^^^ y) ^^^ c
      let co := (x &&& y) ||| (c &&& (x ^^^ y))
      (r.1 ++ [s], co, r.2.2 ++ [⟨i + as.length, x, y, c, s, co⟩]) := by
  induction as generalizing bs cin i with
  | nil =>
    cases bs with
    | nil => simp [rippleFull]
    | cons b0 bs => simp at h
  | cons a0 as ih =>
    cases bs with
    | nil => simp at h
    | cons b0 bs =>
      simp only [List.cons_append, rippleFull, List.append_eq]
      rw [ih bs _ _ (by simpa using h)]
      simp [Nat.add_assoc, Nat.add_comm 1 as.length]

theorem fullAdder_V {x y c : Nat} (hx : x ≤ 1) (hy : y ≤ 1) (hc : c ≤ 1) :
    ((if c ≠ (x &&& y) ||| (c &&& (x ^^^ y)) then 1 else 0) = 1
      ↔ (x = y ∧ (x ^^^ y) ^^^ c ≠ x)) := by
  interval_cases x <;> interval_cases y <;> interval_cases c <;> decide

theorem eq_take_append_last {l : List Nat} (h : l.length = 32) :
    l = l.take 31 ++ [l.getD 31 0] := by
  have h1 : (l.drop 31).length = 1 := by rw [List.length_drop, h]
  obtain ⟨x, t, ht⟩ : ∃ x t, l.drop 31 = x :: t := by
    cases hd : l.drop 31 with
    | nil => rw [hd] at h1; simp at h1
    | cons x t => exact ⟨x, t, rfl⟩
  have ht0 : t = [] := by rw [ht] at h1; simpa using h1
  have hlen : (l.take 31).length = 31 := List.length_take_of_le (by omega)
  have hx : l.getD 31 0 = x := by
    conv_lhs => rw [← List.take_append_drop 31 l]
    rw [List.getD_append_right _ _ _ _ (by omega), hlen, ht, ht0]
    rfl
  conv_lhs => rw [← List.take_append_drop 31 l]
  rw [ht, ht0, hx]

/-- Behaviour of the ripple adder on valid 32-bit inputs: lengths, value
law for the carry out of bit 31, the N/Z definitions, and the overflow
flag's two characterisations. -/
theorem _add_bits_with_cin_spec (a b : List Nat) (cin : Nat) (tr : Bool)
    (ha : Valid32 a) (hb : Valid32 b) (hc : cin ≤ 1) :
    (_add_bits_with_cin a b cin tr).sum_bits.length = 32
    ∧ Bitty (_add_bits_with_cin a b cin tr).sum_bits
    ∧ (_add_bits_with_cin a b cin tr).C ≤ 1
    ∧ lval (_add_bits_with_cin a b cin tr).sum_bits
        + 2 ^ 32 * (_add_bits_with_cin a b cin tr).C = lval a + lval b + cin
    ∧ (_add_bits_with_cin a b cin tr).N
        = (_add_bits_with_cin a b cin tr).sum_bits.getD 31 0
    ∧ ((_add_bits_with_cin a b cin tr).Z = 1
        ↔ ∀ bit ∈ (_add_bits_with_cin a b cin tr).sum_bits, bit = 0)
    ∧ ((_add_bits_with_cin a b cin tr).V = 1
        ↔ (a.getD 31 0 = b.getD 31 0
            ∧ (_add_bits_with_cin a b cin tr).sum_bits.getD 31 0 ≠ a.getD 31 0)) := by
  obtain ⟨hla, hba⟩ := ha
  obtain ⟨hlb, hbb⟩ := hb
  have hlen : a.length = b.length := by rw [hla, hlb]
  -- facts that do not need the bit-31 decomposition
  have hslen : (rippleFull a b cin 0).1.length = 32 := by
    rw [rippleFull_sum_length a b cin 0 hlen, hla]
  have hbit := rippleFull_bitty a b cin 0 hlen hba hbb hc
  have hval := rippleFull_val a b cin 0 hlen hba hbb hc
  rw [hla] at hval
  -- decompose at bit 31
  have hadec := eq_take_append_last hla
  have hbdec := eq_take_append_last hlb
  have hta : (a.take 31).length = 31 := List.length_take_of_le (by omega)
  have htb : (b.take 31).length = 31 := List.length_take_of_le (by omega)
  have htab : (a.take 31).length = (b.take 31).length := by rw [hta, htb]
  have hxa : a.getD 31 0 ≤ 1 := by
    have h31 : (31 : Nat) < a.length := by omega
    rw [List.getD_eq_getElem a 0 h31]
    exact hba _ (List.getElem_mem h31)
  have hxb : b.getD 31 0 ≤ 1 := by
    have h31 : (31 : Nat) < b.length := by omega
    rw [List.getD_eq_getElem b 0 h31]
    exact hbb _ (List.getElem_mem h31)
  have hc31 : (rippleFull (a.take 31) (b.take 31) cin 0).2.1 ≤ 1 :=
    (rippleFull_bitty _ _ cin 0 htab (bitty_take hba 31) (bitty_take hbb 31) hc).2
  have hmain : rippleFull a b cin 0
      = rippleFull (a.take 31 ++ [a.getD 31 0]) (b.take 31 ++ [b.getD 31 0]) cin 0 := by
    conv_lhs => rw [hadec, hbdec]
  rw [rippleFull_append_last _ _ _ _ cin 0 htab] at hmain
  simp only at hmain
  have hrows31 : (rippleFull (a.take 31) (b.take 31) cin 0).2.2.length = 31 := by
    rw [rippleFull_rows_length _ _ cin 0 htab, hta]
  have hsum31 : (rippleFull (a.take 31) (b.take 31) cin 0).1.length = 31 := by
    rw [rippleFull_sum_length _ _ cin 0 htab, hta]
  refine ⟨?_, ?_, ?_, ?_, ?_, ?_, ?_⟩
  · exact hslen
  · exact hbit.1
  · exact hbit.2
  · exact hval
  · rfl
  · simp only [_add_bits_with_cin]
    split
    · rename_i hall
      simp only [List.all_eq_true, beq_iff_eq] at hall
      exact ⟨fun _ => hall, fun _ => rfl⟩
    · rename_i hall
      simp only [List.all_eq_true, beq_iff_eq] at hall
      constructor
      · intro h0; cases h0
      · intro h0; exact absurd h0 hall
  · -- V flag: captured row 31 is the appended final full-adder step
    simp only [_add_bits_with_cin, hmain]
    rw [List.getD_append_right _ _ _ _ (by omega), hrows31]
    simp only [Nat.sub_self, List.getD_cons_zero]
    rw [List.getD_append_right _ _ _ _ (by omega), hsum31]
    simp only [Nat.sub_self, List.getD_cons_zero]
    exact fullAdder_V hxa hxb hc31

/-! Loop bookkeeping: the traced folds project onto the trace-free ones,
and append exactly one row per iteration when tracing. -/

theorem mulStep_fold_fst (a64 b32 : List Nat) (tr : Bool) (l : List Nat)
    (s : List Nat × List MulRow) :
    (l.foldl (mulStep a64 b32 tr) s).1 = l.foldl (mulAccStep a64 b32) s.1 := by
  induction l generalizing s with
  | nil => rfl
  | cons i t ih => exact ih (mulStep a64 b32 tr s i)

theorem mulStep_fold_rows (a64 b32 : List Nat) (l : List Nat)
    (s : List Nat × List MulRow) :
    (l.foldl (mulStep a64 b32 true) s).2.length = s.2.length + l.length := by
  induction l generalizing s with
  | nil => simp
  | cons i t ih =>
    rw [List.foldl_cons, ih (mulStep a64 b32 true s i)]
    simp [mulStep]
    omega

theorem divStep_fold_R (D33 : List Nat) (tr : Bool) (l : List Nat)
    (s : List Nat × List Nat × List DivRow) :
    (l.foldl (divLoopStep D33 tr) s).1
      = (l.foldl (fun rq _ => divStepP D33 rq) (s.1, s.2.1)).1 := by
  induction l generalizing s with
  | nil => rfl
  | cons i t ih => exact ih (divLoopStep D33 tr s i)

theorem divStep_fold_Q (D33 : List Nat) (tr : Bool) (l : List Nat)
    (s : List Nat × List Nat × List DivRow) :
    (l.foldl (divLoopStep D33 tr) s).2.1
      = (l.foldl (fun rq _ => divStepP D33 rq) (s.1, s.2.1)).2 := by
  induction l generalizing s with
  | nil => rfl
  | cons i t ih => exact ih (divLoopStep D33 tr s i)

theorem divStep_fold_rows (D33 : List Nat) (l : List Nat)
    (s : List Nat × List Nat × List DivRow) :
    (l.foldl (divLoopStep D33 true) s).2.2.length = s.2.2.length + l.length := by
  induction l generalizing s with
  | nil => simp
  | cons i t ih =>
    rw [List.foldl_cons, ih (divLoopStep D33 true s i)]
    simp [divLoopStep]
    omega

theorem length_invert_bits (l : List Nat) : (_invert_bits l).length = l.length :=
  List.length_map l _

theorem except_map_ok {α β : Type} (f : α → β) (x : α) :
    (Except.ok x : Except String α).map f = .ok (f x) := rfl

theorem add_bits_ok {a b : List Nat} (tr : Bool) (h : (check32 a && check32 b) = true) :
    add_bits a b tr = .ok (_add_bits_with_cin a b 0 tr) := by
  unfold add_bits
  rw [if_pos h]

theorem sub_bits_ok {a b : List Nat} (tr : Bool) (h : (check32 a && check32 b) = true) :
    sub_bits a b tr = .ok (_add_bits_with_cin a (_invert_bits b) 1 tr) := by
  unfold sub_bits
  rw [if_pos h]

theorem mul_shift_add_ok {a b : List Nat} (tr : Bool)
    (h : (check32 a && check32 b) = true) :
    mul_shift_add a b tr = .ok (mul_shift_add_core a b tr) := by
  unfold mul_shift_add
  rw [if_pos h]

theorem div_restoring_ok {a b : List Nat} (sgnd tr : Bool)
    (h : (check32 a && check32 b) = true) :
    div_restoring a b sgnd tr = .ok (div_restoring_core a b sgnd tr) := by
  unfold div_restoring
  rw [if_pos h]

theorem div_core_numeric (a b : List Nat) (sgnd tr tr' : Bool) :
    (div_restoring_core a b sgnd tr).q_bits = (div_restoring_core a b sgnd tr').q_bits
    ∧ (div_restoring_core a b sgnd tr).r_bits = (div_restoring_core a b sgnd tr').r_bits
    ∧ (div_restoring_core a b sgnd tr).flags = (div_restoring_core a b sgnd tr').flags := by
  simp only [div_restoring_core, divStep_fold_R, divStep_fold_Q]
  split_ifs <;> refine ⟨?_, ?_, ?_⟩ <;> rfl

theorem _add_bits_with_cin_trace_length (a b : List Nat) (cin : Nat)
    (h : a.length = b.length) (h32 : a.length = 32) :
    (_add_bits_with_cin a b cin true).trace.length = 34 := by
  have hr := rippleFull_rows_length a b cin 0 h
  simp only [_add_bits_with_cin]
  simp [hr, h32]

theorem mul_core_trace_length (a b : List Nat) :
    (mul_shift_add_core a b true).trace.length = 32 := by
  have h := mulStep_fold_rows (_sign_extend_to_64 a) b (List.range 32)
    (List.replicate 64 0, [])
  show ((List.range 32).foldl (mulStep (_sign_extend_to_64 a) b true)
    (List.replicate 64 0, [])).2.length = 32
  rw [h]
  simp

theorem div_core_trace_length_le (a b : List Nat) (sgnd : Bool) :
    (div_restoring_core a b sgnd true).trace.length ≤ 34 := by
  simp only [div_restoring_core]
  split_ifs <;> simp [divStep_fold_rows]

/-- C9: applying any of the three shifters with shift amount 0 returns the
input vector unchanged (the spec's "Shift identity" law). -/
theorem shift_by_zero_identity (bits : List Nat) (h : Valid32 bits) :
    sll_bits bits 0 = .ok bits ∧ srl_bits bits 0 = .ok bits
      ∧ sra_bits bits 0 = .ok bits := by
  have hc : check32 bits = true := check32_eq_true.mpr h
  have h1 : sll_core bits 0 = bits := rfl
  have h2 : srl_core bits 0 = bits := rfl
  have h3 : sra_core bits 0 = bits := rfl
  refine ⟨?_, ?_, ?_⟩ <;> simp [sll_bits, srl_bits, sra_bits, hc, h1, h2, h3]

theorem shift_by_zero_identity_witness :
    Valid32 (u32_to_bits 0xA5A5A5A5)
    ∧ (sll_bits (u32_to_bits 0xA5A5A5A5) 0 = .ok (u32_to_bits 0xA5A5A5A5)
      ∧ srl_bits (u32_to_bits 0xA5A5A5A5) 0 = .ok (u32_to_bits 0xA5A5A5A5)
      ∧ sra_bits (u32_to_bits 0xA5A5A5A5) 0 = .ok (u32_to_bits 0xA5A5A5A5)) :=
  ⟨by decide, shift_by_zero_identity (u32_to_bits 0xA5A5A5A5) (by decide)⟩

/-- C8: requesting a trace changes no numeric output: result bits and
N/Z/C/V of add/sub, product bits and overflow of the multiplier, and
quotient/remainder/flags of the divider are identical with tracing on and
off. -/
theorem trace_purely_additive (a b : List Nat) (sgnd : Bool)
    (ha : Valid32 a) (hb : Valid32 b) :
    (add_bits a b true).map (fun r => (r.sum_bits, r.N, r.Z, r.C, r.V))
      = (add_bits a b false).map (fun r => (r.sum_bits, r.N, r.Z, r.C, r.V))
    ∧ (sub_bits a b true).map (fun r => (r.sum_bits, r.N, r.Z, r.C, r.V))
      = (sub_bits a b false).map (fun r => (r.sum_bits, r.N, r.Z, r.C, r.V))
    ∧ (mul_shift_add a b true).map (fun m => (m.rd_bits, m.overflow))
      = (mul_shift_add a b false).map (fun m => (m.rd_bits, m.overflow))
    ∧ (div_restoring a b sgnd true).map (fun d => (d.q_bits, d.r_bits, d.flags))
      = (div_restoring a b sgnd false).map (fun d => (d.q_bits, d.r_bits, d.flags)) := by
  have hc : (check32 a && check32 b) = true := by
    rw [check32_eq_true.mpr ha, check32_eq_true.mpr hb]; rfl
  refine ⟨?_, ?_, ?_, ?_⟩
  · rw [add_bits_ok true hc, add_bits_ok false hc, except_map_ok, except_map_ok]
    rfl
  · rw [sub_bits_ok true hc, sub_bits_ok false hc, except_map_ok, except_map_ok]
    rfl
  · rw [mul_shift_add_ok true hc, mul_shift_add_ok false hc, except_map_ok,
      except_map_ok]
    have h1 : (mul_shift_add_core a b true).rd_bits
        = (mul_shift_add_core a b false).rd_bits := by
      simp only [mul_shift_add_core, mulStep_fold_fst]
    have h2 : (mul_shift_add_core a b true).overflow
        = (mul_shift_add_core a b false).overflow := by
      simp only [mul_shift_add_core, mulStep_fold_fst]
    rw [h1, h2]
  · rw [div_restoring_ok sgnd true hc, div_restoring_ok sgnd false hc,
      except_map_ok, except_map_ok]
    obtain ⟨h1, h2, h3⟩ := div_core_numeric a b sgnd true false
    rw [h1, h2, h3]

/-- C8 witness at a concrete pair of operands. -/
theorem trace_purely_additive_witness :
    Valid32 (u32_to_bits 0xFFFFFFF9)
    ∧ ((add_bits (u32_to_bits 0xFFFFFFF9) (u32_to_bits 3) true).map
          (fun r => (r.sum_bits, r.N, r.Z, r.C, r.V))
        = (add_bits (u32_to_bits 0xFFFFFFF9) (u32_to_bits 3) false).map
          (fun r => (r.sum_bits, r.N, r.Z, r.C, r.V))
      ∧ (sub_bits (u32_to_bits 0xFFFFFFF9) (u32_to_bits 3) true).map
          (fun r => (r.sum_bits, r.N, r.Z, r.C, r.V))
        = (sub_bits (u32_to_bits 0xFFFFFFF9) (u32_to_bits 3) false).map
          (fun r => (r.sum_bits, r.N, r.Z, r.C, r.V))
      ∧ (mul_shift_add (u32_to_bits 0xFFFFFFF9) (u32_to_bits 3) true).map
          (fun m => (m.rd_bits, m.overflow))
        = (mul_shift_add (u32_to_bits 0xFFFFFFF9) (u32_to_bits 3) false).map
          (fun m => (m.rd_bits, m.overflow))
      ∧ (div_restoring (u32_to_bits 0xFFFFFFF9) (u32_to_bits 3) true true).map
          (fun d => (d.q_bits, d.r_bits, d.flags))
        = (div_restoring (u32_to_bits 0xFFFFFFF9) (u32_to_bits 3) true false).map
          (fun d => (d.q_bits, d.r_bits, d.flags))) :=
  ⟨by decide,
    trace_purely_additive (u32_to_bits 0xFFFFFFF9) (u32_to_bits 3) true
      (by decide) (by decide)⟩

/-- C7 counterexample: a traced ALU add over 32 bits records a start row,
32 per-bit rows and a finish row — 34 trace entries, exceeding the claimed
bound of 33. -/
theorem trace_at_most_33_counterexample :
    (add_bits (u32_to_bits 0) (u32_to_bits 0) true).map (fun r => r.trace.length)
      = .ok 34
    ∧ ¬(34 ≤ 33) :=
  ⟨rfl, by decide⟩

/-- C7 (amended): every trace is finite and has at most 34 entries — the
traced ALU add/sub emit exactly 34 (start + 32 bits + finish), the
multiplier exactly 32, and the divider at most 34 (2 on its early-exit
paths, 34 on the iterating path). -/
theorem trace_bounded_amended (a b : List Nat) (sgnd : Bool)
    (ha : Valid32 a) (hb : Valid32 b) :
    (add_bits a b true).map (fun r => r.trace.length) = .ok 34
    ∧ (sub_bits a b true).map (fun r => r.trace.length) = .ok 34
    ∧ (mul_shift_add a b true).map (fun m => m.trace.length) = .ok 32
    ∧ (div_restoring a b sgnd true).map (fun d => decide (d.trace.length ≤ 34))
        = .ok true := by
  have hc : (check32 a && check32 b) = true := by
    rw [check32_eq_true.mpr ha, check32_eq_true.mpr hb]; rfl
  have hlen : a.length = b.length := by rw [ha.1, hb.1]
  refine ⟨?_, ?_, ?_, ?_⟩
  · rw [add_bits_ok true hc, except_map_ok,
      _add_bits_with_cin_trace_length a b 0 hlen ha.1]
  · have hlen' : a.length = (_invert_bits b).length := by
      rw [length_invert_bits, hlen]
    rw [sub_bits_ok true hc, except_map_ok,
      _add_bits_with_cin_trace_length a (_invert_bits b) 1 hlen' ha.1]
  · rw [mul_shift_add_ok true hc, except_map_ok, mul_core_trace_length]
  · rw [div_restoring_ok sgnd true hc, except_map_ok,
      decide_eq_true (div_core_trace_length_le a b sgnd)]

theorem trace_bounded_amended_witness :
    Valid32 (u32_to_bits 5)
    ∧ ((add_bits (u32_to_bits 5) (u32_to_bits 7) true).map (fun r => r.trace.length)
        = .ok 34
      ∧ (sub_bits (u32_to_bits 5) (u32_to_bits 7) true).map (fun r => r.trace.length)
        = .ok 34
      ∧ (mul_shift_add (u32_to_bits 5) (u32_to_bits 7) true).map
          (fun m => m.trace.length) = .ok 32
      ∧ (div_restoring (u32_to_bits 5) (u32_to_bits 7) false true).map
          (fun d => decide (d.trace.length ≤ 34)) = .ok true) :=
  ⟨by decide,
    trace_bounded_amended (u32_to_bits 5) (u32_to_bits 7) false
      (by decide) (by decide)⟩

/-- C6: dividing by an all-zero divisor raises nothing; it returns
quotient all-ones, remainder = dividend, `div_by_zero = 1`, and performs
no division iteration (the trace holds only the start/finish records). -/
theorem div_by_zero_flagged (dvd dvs : List Nat) (sgnd tr : Bool)
    (hd : Valid32 dvd) (hv : Valid32 dvs) (hz : ∀ bit ∈ dvs, bit = 0) :
    div_restoring dvd dvs sgnd tr
      = .ok { q_bits := List.replicate 32 1, r_bits := dvd, flags := ⟨1, 0⟩,
              trace := if tr then
                  [DivRow.start (lval dvd) (lval dvs) sgnd,
                   DivRow.finishNoFlags (lval (List.replicate 32 1)) (lval dvd)]
                else [] }
    ∧ (div_restoring dvd dvs sgnd tr).map
        (fun d => d.trace.countP isIterRow) = .ok 0 := by
  have hc : (check32 dvd && check32 dvs) = true := by
    rw [check32_eq_true.mpr hd, check32_eq_true.mpr hv]; rfl
  have hz' : _is_zero dvs = true := by
    simp only [_is_zero, List.all_eq_true, beq_iff_eq]
    exact hz
  have hmain : div_restoring dvd dvs sgnd tr
      = .ok { q_bits := List.replicate 32 1, r_bits := dvd, flags := ⟨1, 0⟩,
              trace := if tr then
                  [DivRow.start (lval dvd) (lval dvs) sgnd,
                   DivRow.finishNoFlags (lval (List.replicate 32 1)) (lval dvd)]
                else [] } := by
    rw [div_restoring_ok sgnd tr hc]
    unfold div_restoring_core
    rw [if_pos hz']
    rfl
  refine ⟨hmain, ?_⟩
  rw [hmain]
  cases tr <;> rfl

theorem div_by_zero_flagged_witness :
    Valid32 (u32_to_bits 123)
    ∧ (div_restoring (u32_to_bits 123) (u32_to_bits 0) true true
        = .ok { q_bits := List.replicate 32 1, r_bits := u32_to_bits 123,
                flags := ⟨1, 0⟩,
                trace := if true then
                    [DivRow.start (lval (u32_to_bits 123)) (lval (u32_to_bits 0)) true,
                     DivRow.finishNoFlags (lval (List.replicate 32 1))
                       (lval (u32_to_bits 123))]
                  else [] }
      ∧ (div_restoring (u32_to_bits 123) (u32_to_bits 0) true true).map
          (fun d => d.trace.countP isIterRow) = .ok 0) :=
  ⟨by decide,
    div_by_zero_flagged (u32_to_bits 123) (u32_to_bits 0) true true
      (by decide) (by decide) (by decide)⟩

/-- C10: in unsigned mode the INT_MIN/−1 special case does not apply:
`0x80000000 / 0xFFFFFFFF` runs the full 32-iteration restoring loop and
returns quotient 0, remainder `0x80000000`, with both flags 0. -/
theorem div_unsigned_no_intmin_special :
    (div_restoring (u32_to_bits 0x80000000) (u32_to_bits 0xFFFFFFFF) false true).map
      (fun d => (d.q_bits, d.r_bits, d.flags, d.trace.length,
        d.trace.countP isIterRow))
    = .ok (u32_to_bits 0x00000000, u32_to_bits 0x80000000, ⟨0, 0⟩, 34, 32) := by
  rfl

/-- C5: for valid operands, `add` returns flags with `N` = result bit 31;
`Z = 1` iff all 32 result bits are 0; `C` the carry out of bit 31 (the
unique bit making `result + 2^32·C` the exact sum); and `V = 1` iff the
operands share a sign bit and the result's sign bit differs from it
(equivalently, carry into bit 31 ≠ carry out of bit 31). -/
theorem alu_add_flag_identities (a b : List Nat) (tr : Bool) (r : AddOut)
    (ha : Valid32 a) (hb : Valid32 b) (h : add_bits a b tr = .ok r) :
    r.N = r.sum_bits.getD 31 0
    ∧ (r.Z = 1 ↔ ∀ bit ∈ r.sum_bits, bit = 0)
    ∧ lval r.sum_bits + 2 ^ 32 * r.C = lval a + lval b
    ∧ (r.V = 1 ↔ (a.getD 31 0 = b.getD 31 0 ∧ r.sum_bits.getD 31 0 ≠ a.getD 31 0)) := by
  have hc : (check32 a && check32 b) = true := by
    rw [check32_eq_true.mpr ha, check32_eq_true.mpr hb]; rfl
  rw [add_bits_ok tr hc] at h
  have hr : r = _add_bits_with_cin a b 0 tr := by
    cases h; rfl
  subst hr
  obtain ⟨_, _, _, hsum, hN, hZ, hV⟩ :=
    _add_bits_with_cin_spec a b 0 tr ha hb (by omega)
  exact ⟨hN, hZ, by omega, hV⟩

theorem alu_add_flag_identities_witness :
    Valid32 (u32_to_bits 0x7FFFFFFF)
    ∧ ((1 : Nat) = (u32_to_bits 0x80000000).getD 31 0
      ∧ (((0 : Nat) = 1) ↔ ∀ bit ∈ u32_to_bits 0x80000000, bit = 0)
      ∧ lval (u32_to_bits 0x80000000) + 2 ^ 32 * 0
          = lval (u32_to_bits 0x7FFFFFFF) + lval (u32_to_bits 0x00000001)
      ∧ (((1 : Nat) = 1) ↔ ((u32_to_bits 0x7FFFFFFF).getD 31 0
            = (u32_to_bits 0x00000001).getD 31 0
          ∧ (u32_to_bits 0x80000000).getD 31 0 ≠ (u32_to_bits 0x7FFFFFFF).getD 31 0))) :=
  ⟨by decide,
    alu_add_flag_identities (u32_to_bits 0x7FFFFFFF) (u32_to_bits 0x00000001) false
      ⟨u32_to_bits 0x80000000, 1, 0, 0, 1, []⟩ (by decide) (by decide) rfl⟩

/-! Value semantics of the MDU bit helpers. -/

theorem _add_n_spec (a b : List Nat) (h : a.length = b.length)
    (ha : Bitty a) (hb : Bitty b) :
    (_add_n a b).1.length = a.length ∧ Bitty (_add_n a b).1 ∧ (_add_n a b).2 ≤ 1
    ∧ lval (_add_n a b).1 + 2 ^ a.length * (_add_n a b).2 = lval a + lval b := by
  have h1 := rippleFull_sum_length a b 0 0 h
  have h2 := rippleFull_bitty a b 0 0 h ha hb (by omega)
  have h3 := rippleFull_val a b 0 0 h ha hb (by omega)
  refine ⟨h1, h2.1, h2.2, ?_⟩
  show lval (rippleFull a b 0 0).1 + 2 ^ a.length * (rippleFull a b 0 0).2.1
    = lval a + lval b
  omega

theorem _add_n_val (a b : List Nat) (h : a.length = b.length)
    (ha : Bitty a) (hb : Bitty b) :
    lval (_add_n a b).1 = (lval a + lval b) % 2 ^ a.length := by
  obtain ⟨h1, h2, h3, h4⟩ := _add_n_spec a b h ha hb
  have hlt : lval (_add_n a b).1 < 2 ^ a.length := by
    have := lval_lt _ h2
    rwa [h1] at this
  rw [← h4, Nat.add_mul_mod_self_left, Nat.mod_eq_of_lt hlt]

theorem _not_bits_spec (l : List Nat) (h : Bitty l) :
    (_not_bits l).length = l.length ∧ Bitty (_not_bits l)
    ∧ lval (_not_bits l) + lval l + 1 = 2 ^ l.length := by
  induction l with
  | nil => exact ⟨rfl, bitty_nil, rfl⟩
  | cons b t ih =>
    obtain ⟨hb, ht⟩ := bitty_of_cons h
    obtain ⟨ih1, ih2, ih3⟩ := ih ht
    have hcons : _not_bits (b :: t) = (if b == 1 then 0 else 1) :: _not_bits t := rfl
    have hnb : (if b == 1 then (0 : Nat) else 1) ≤ 1 := by split <;> omega
    rw [hcons]
    refine ⟨by simp [ih1], bitty_cons hnb ih2, ?_⟩
    simp only [lval_cons, List.length_cons]
    have hsplit : (if b == 1 then (0 : Nat) else 1) + b = 1 := by
      rcases Nat.le_one_iff_eq_zero_or_eq_one.mp hb with rfl | rfl <;> rfl
    rw [Nat.pow_succ]
    omega

theorem one_list_spec (n : Nat) (hn : 1 ≤ n) :
    (1 :: List.replicate (n - 1) 0).length = n
    ∧ Bitty (1 :: List.replicate (n - 1) 0)
    ∧ lval (1 :: List.replicate (n - 1) 0) = 1 := by
  refine ⟨by simp; omega, bitty_cons (by omega) (bitty_replicate _ 0 (by omega)), by simp⟩

theorem _twos_neg_spec (l : List Nat) (h : Bitty l) (hn : 1 ≤ l.length) :
    (_twos_neg l).length = l.length ∧ Bitty (_twos_neg l)
    ∧ lval (_twos_neg l) = (2 ^ l.length - lval l) % 2 ^ l.length := by
  obtain ⟨hn1, hn2, hn3⟩ := _not_bits_spec l h
  obtain ⟨ho1, ho2, ho3⟩ := one_list_spec l.length hn
  have hlen : (_not_bits l).length = (1 :: List.replicate (l.length - 1) 0).length := by
    rw [hn1, ho1]
  obtain ⟨ha1, ha2, _, _⟩ := _add_n_spec _ _ hlen hn2 ho2
  have hv := _add_n_val _ _ hlen hn2 ho2
  rw [ho3, hn1] at hv
  have h5 : lval (_not_bits l) + 1 = 2 ^ l.length - lval l := by
    have := lval_lt l h
    omega
  rw [h5] at hv
  exact ⟨by rw [show (_twos_neg l).length = (_not_bits l).length from ha1, hn1],
    ha2, hv⟩

theorem _sub_n_spec (a b : List Nat) (h : a.length = b.length) (hn : 1 ≤ a.length)
    (ha : Bitty a) (hb : Bitty b) :
    (_sub_n a b).1.length = a.length ∧ Bitty (_sub_n a b).1
    ∧ lval (_sub_n a b).1 = (lval a + (2 ^ a.length - lval b)) % 2 ^ a.length := by
  obtain ⟨hb1, hb2, hb3⟩ := _not_bits_spec b hb
  have hlen1 : a.length = (_not_bits b).length := by rw [hb1, h]
  obtain ⟨ht1, ht2, _, _⟩ := _add_n_spec a (_not_bits b) hlen1 ha hb2
  have htv := _add_n_val a (_not_bits b) hlen1 ha hb2
  obtain ⟨ho1, ho2, ho3⟩ := one_list_spec a.length hn
  have hlen2 : (_add_n a (_not_bits b)).1.length
      = (1 :: List.replicate (a.length - 1) 0).length := by rw [ht1, ho1]
  obtain ⟨hd1, hd2, _, _⟩ := _add_n_spec _ _ hlen2 ht2 ho2
  have hdv := _add_n_val _ _ hlen2 ht2 ho2
  rw [ho3, htv, ht1] at hdv
  rw [Nat.mod_add_mod] at hdv
  have hNB : lval a + lval (_not_bits b) + 1 = lval a + (2 ^ a.length - lval b) := by
    have := lval_lt b hb
    have hp : 2 ^ a.length = 2 ^ b.length := by rw [h]
    omega
  rw [hNB] at hdv
  exact ⟨by rw [show (_sub_n a b).1.length = (_add_n a (_not_bits b)).1.length from hd1, ht1],
    hd2, hdv⟩

theorem _stage_left_n_eq (l : List Nat) (st : Nat) :
    _stage_left_n l st = (List.replicate st 0 ++ l).take l.length := by
  apply List.ext_getElem
  · simp [_stage_left_n]
  · intro i h1 h2
    have hi : i < l.length := by simpa [_stage_left_n] using h1
    simp only [_stage_left_n, List.getElem_map, List.getElem_range, List.getElem_take]
    by_cases hst : st ≤ i
    · rw [if_pos hst, List.getElem_append_right (by simpa using hst)]
      simp only [List.length_replicate]
      rw [List.getD_eq_getElem l 0 (show i - st < l.length by omega)]
    · rw [if_neg hst, List.getElem_append_left (by simpa using Nat.lt_of_not_le hst),
        List.getElem_replicate]

theorem _stage_left_n_spec (l : List Nat) (st : Nat) (h : Bitty l) :
    (_stage_left_n l st).length = l.length ∧ Bitty (_stage_left_n l st)
    ∧ lval (_stage_left_n l st) = (2 ^ st * lval l) % 2 ^ l.length := by
  rw [_stage_left_n_eq]
  have hb : Bitty (List.replicate st 0 ++ l) :=
    bitty_append (bitty_replicate st 0 (by omega)) h
  refine ⟨by simp, bitty_take hb _, ?_⟩
  rw [lval_take _ hb, lval_append]
  simp

theorem _sll_n_stages_spec (k : Nat) (stages : List (Nat × Nat)) :
    ∀ l : List Nat, Bitty l →
      (stages.foldl
          (fun out p => if (k >>> p.1) &&& 1 == 1 then _stage_left_n out p.2 else out)
          l).length = l.length
      ∧ Bitty (stages.foldl
          (fun out p => if (k >>> p.1) &&& 1 == 1 then _stage_left_n out p.2 else out) l)
      ∧ lval (stages.foldl
          (fun out p => if (k >>> p.1) &&& 1 == 1 then _stage_left_n out p.2 else out) l)
        = (2 ^ (stages.foldr
            (fun p acc => (if (k >>> p.1) &&& 1 == 1 then p.2 else 0) + acc) 0)
          * lval l) % 2 ^ l.length := by
  induction stages with
  | nil =>
    intro l hl
    refine ⟨rfl, hl, ?_⟩
    simp [Nat.mod_eq_of_lt (lval_lt l hl)]
  | cons p rest ih =>
    intro l hl
    rw [List.foldl_cons, List.foldr_cons]
    by_cases hcond : ((k >>> p.1) &&& 1 == 1) = true
    · rw [if_pos hcond]
      obtain ⟨hs1, hs2, hs3⟩ := _stage_left_n_spec l p.2 hl
      obtain ⟨ih1, ih2, ih3⟩ := ih (_stage_left_n l p.2) hs2
      rw [if_pos hcond]
      refine ⟨by rw [ih1, hs1], ih2, ?_⟩
      rw [ih3, hs3, hs1]
      rw [Nat.mul_mod_mod, ← Nat.mul_assoc, ← Nat.pow_add, Nat.add_comm p.2]
    · rw [if_neg hcond, if_neg hcond]
      simpa using ih l hl

theorem _sll_n_spec (l : List Nat) (k : Nat) (h : Bitty l) (hk : k < 128) :
    (_sll_n l k).length = l.length ∧ Bitty (_sll_n l k)
    ∧ lval (_sll_n l k) = (2 ^ k * lval l) % 2 ^ l.length := by
  obtain ⟨h1, h2, h3⟩ := _sll_n_stages_spec k mulStages l h
  refine ⟨h1, h2, ?_⟩
  have term : ∀ i v : Nat, (if (k >>> i) &&& 1 == 1 then v else 0) = k / 2 ^ i % 2 * v := by
    intro i v
    rw [show ((k >>> i) &&& 1) = k / 2 ^ i % 2 from by
      rw [Nat.and_one_is_mod, Nat.shiftRight_eq_div_pow]]
    rcases Nat.mod_two_eq_zero_or_one (k / 2 ^ i) with hm | hm <;> rw [hm] <;> simp
  have hsum : (mulStages.foldr
      (fun p acc => (if (k >>> p.1) &&& 1 == 1 then p.2 else 0) + acc) 0) = k := by
    simp only [mulStages, List.foldr_cons, List.foldr_nil, term]
    omega
  rw [hsum] at h3
  exact h3

theorem getD31_le_one {l : List Nat} (h : Valid32 l) : l.getD 31 0 ≤ 1 := by
  have h31 : (31 : Nat) < l.length := by rw [h.1]; omega
  rw [List.getD_eq_getElem l 0 h31]
  exact h.2 _ (List.getElem_mem h31)

theorem _sign_extend_to_64_spec (l : List Nat) (h : Valid32 l) :
    (_sign_extend_to_64 l).length = 64 ∧ Bitty (_sign_extend_to_64 l)
    ∧ lval (_sign_extend_to_64 l) + 2 ^ 32 * l.getD 31 0
        = lval l + 2 ^ 64 * l.getD 31 0 := by
  have hbit : l.getD 31 0 ≤ 1 := getD31_le_one h
  refine ⟨by simp [_sign_extend_to_64, h.1],
    bitty_append h.2 (bitty_replicate _ _ hbit), ?_⟩
  show lval (l ++ List.replicate 32 (l.getD 31 0)) + _ = _
  rw [lval_append, h.1]
  rcases Nat.le_one_iff_eq_zero_or_eq_one.mp hbit with hb | hb <;> rw [hb]
  · simp
  · rw [lval_replicate_one]
    have he : 2 ^ 32 * (2 ^ 32 - 1) + 2 ^ 32 = 2 ^ 64 := by norm_num
    omega

theorem sign_extend_cong (l : List Nat) (h : Valid32 l) :
    Int.ModEq (2 ^ 64) (lval (_sign_extend_to_64 l)) (toSigned32 l) := by
  obtain ⟨_, _, hv⟩ := _sign_extend_to_64_spec l h
  unfold toSigned32
  by_cases hb : l.getD 31 0 = 1
  · rw [if_pos hb]
    rw [hb] at hv
    refine Int.modEq_iff_dvd.mpr ⟨-1, ?_⟩
    omega
  · rw [if_neg hb]
    have hb0 : l.getD 31 0 = 0 := by
      have := getD31_le_one h
      omega
    rw [hb0] at hv
    have : lval (_sign_extend_to_64 l) = lval l := by omega
    rw [this]

theorem toSigned32_cong (l : List Nat) :
    Int.ModEq (2 ^ 32) (toSigned32 l) (lval l) := by
  unfold toSigned32
  split
  · exact Int.modEq_iff_dvd.mpr ⟨1, by ring⟩
  · exact Int.ModEq.refl _

theorem toSigned32_bounds (l : List Nat) (h : Valid32 l) :
    -(2 ^ 31) ≤ toSigned32 l ∧ toSigned32 l < 2 ^ 31 := by
  have hlt : lval l < 2 ^ 32 := by
    have := lval_lt l h.2
    rwa [h.1] at this
  have hbit : l.getD 31 0 = lval l / 2 ^ 31 % 2 := lval_getD l h.2 31
  unfold toSigned32
  split
  · rename_i hb
    rw [hb] at hbit
    omega
  · rename_i hb
    have hb0 : l.getD 31 0 = 0 := by
      have := getD31_le_one h
      omega
    rw [hb0] at hbit
    omega

/-- After `n ≤ 32` iterations the multiplier's 64-bit accumulator holds
`(sign_extended rs1) · (low n bits of rs2)  mod 2^64`. -/
theorem mulAcc_invariant (rs1 rs2 : List Nat) (h1 : Valid32 rs1) (h2 : Valid32 rs2) :
    ∀ n, n ≤ 32 →
      ((List.range n).foldl (mulAccStep (_sign_extend_to_64 rs1) rs2)
        (List.replicate 64 0)).length = 64
      ∧ Bitty ((List.range n).foldl (mulAccStep (_sign_extend_to_64 rs1) rs2)
          (List.replicate 64 0))
      ∧ lval ((List.range n).foldl (mulAccStep (_sign_extend_to_64 rs1) rs2)
          (List.replicate 64 0))
        = (lval (_sign_extend_to_64 rs1) * (lval rs2 % 2 ^ n)) % 2 ^ 64 := by
  obtain ⟨hsl, hsb, _⟩ := _sign_extend_to_64_spec rs1 h1
  intro n
  induction n with
  | zero =>
    intro _
    refine ⟨by simp, bitty_replicate _ _ (by omega), ?_⟩
    simp [Nat.mod_one]
  | succ n ih =>
    intro hn
    obtain ⟨ihl, ihb, ihv⟩ := ih (by omega)
    rw [List.range_succ, List.foldl_append, List.foldl_cons, List.foldl_nil]
    have hbit : rs2.getD n 0 = lval rs2 / 2 ^ n % 2 := lval_getD rs2 h2.2 n
    obtain ⟨hll, hlb, hlv⟩ := _sll_n_spec (_sign_extend_to_64 rs1) n hsb (by omega)
    rw [hsl] at hll hlv
    have hmod := mod_two_pow_succ (lval rs2) n
    have hstep : mulAccStep (_sign_extend_to_64 rs1) rs2
        ((List.range n).foldl (mulAccStep (_sign_extend_to_64 rs1) rs2)
          (List.replicate 64 0)) n
      = if (rs2.getD n 0 == 1) = true
          then (_add_n ((List.range n).foldl (mulAccStep (_sign_extend_to_64 rs1) rs2)
              (List.replicate 64 0)) (_sll_n (_sign_extend_to_64 rs1) n)).1
          else (List.range n).foldl (mulAccStep (_sign_extend_to_64 rs1) rs2)
            (List.replicate 64 0) := rfl
    rw [hstep]
    by_cases hcase : (rs2.getD n 0 == 1) = true
    · rw [if_pos hcase]
      have hb1 : lval rs2 / 2 ^ n % 2 = 1 := by
        rw [← hbit]
        simpa using hcase
      have hlen2 : ((List.range n).foldl (mulAccStep (_sign_extend_to_64 rs1) rs2)
          (List.replicate 64 0)).length = (_sll_n (_sign_extend_to_64 rs1) n).length := by
        rw [ihl, hll]
      obtain ⟨ha1, ha2, _, _⟩ := _add_n_spec _ _ hlen2 ihb hlb
      have hav := _add_n_val _ _ hlen2 ihb hlb
      rw [ihl] at ha1 hav
      refine ⟨ha1, ha2, ?_⟩
      rw [hav, ihv, hlv]
      rw [← Nat.add_mod]
      congr 1
      rw [hmod, hb1]
      ring
    · rw [if_neg hcase]
      have hb0 : lval rs2 / 2 ^ n % 2 = 0 := by
        have : rs2.getD n 0 ≠ 1 := by simpa using hcase
        have hle : rs2.getD n 0 ≤ 1 := by
          rw [hbit]; omega
        omega
      refine ⟨ihl, ihb, ?_⟩
      rw [ihv]
      have heq : lval rs2 % 2 ^ (n + 1) = lval rs2 % 2 ^ n := by
        rw [hb0] at hmod
        simpa using hmod
      rw [heq]

theorem two_pow_sub_one_div_mod (i : Nat) : ∀ n, i < n → (2 ^ n - 1) / 2 ^ i % 2 = 1 := by
  induction i with
  | zero =>
    intro n hn
    cases n with
    | zero => omega
    | succ m =>
      have h1 : (1 : Nat) ≤ 2 ^ m := Nat.one_le_two_pow
      have h2 : 2 ^ (m + 1) = 2 * 2 ^ m := by ring
      simp only [pow_zero, Nat.div_one]
      omega
  | succ i ih =>
    intro n hn
    cases n with
    | zero => omega
    | succ m =>
      have h1 : (1 : Nat) ≤ 2 ^ m := Nat.one_le_two_pow
      have h2 : 2 ^ (m + 1) = 2 * 2 ^ m := by ring
      have h3 : 2 ^ (m + 1) - 1 = 2 * (2 ^ m - 1) + 1 := by omega
      rw [h3, show (2 : Nat) ^ (i + 1) = 2 * 2 ^ i from by ring, ← Nat.div_div_eq_div_mul,
        show (2 * (2 ^ m - 1) + 1) / 2 = 2 ^ m - 1 from by omega]
      exact ih m (by omega)

/-- A number below `2^n` has all of its low `n` bits equal to the bit value
`s` exactly when it equals `s·(2^n − 1)`. -/
theorem bits_all_eq_iff : ∀ (n B s : Nat), B < 2 ^ n → s ≤ 1 →
    ((∀ i, i < n → B / 2 ^ i % 2 = s) ↔ B = s * (2 ^ n - 1)) := by
  intro n
  induction n with
  | zero =>
    intro B s hB _
    simp at hB ⊢
    omega
  | succ n ih =>
    intro B s hB hs
    have hp : (1 : Nat) ≤ 2 ^ n := Nat.one_le_two_pow
    have hp2 : 2 ^ (n + 1) = 2 * 2 ^ n := by ring
    constructor
    · intro h
      have h0 : B % 2 = s := by simpa using h 0
      have hB2 : B / 2 < 2 ^ n := by omega
      have hrec : ∀ i, i < n → B / 2 / 2 ^ i % 2 = s := by
        intro i hi
        rw [Nat.div_div_eq_div_mul, show (2 * 2 ^ i) = 2 ^ (i + 1) from by ring]
        exact h (i + 1) (by omega)
      have := (ih (B / 2) s hB2 hs).mp hrec
      rcases Nat.le_one_iff_eq_zero_or_eq_one.mp hs with rfl | rfl <;> omega
    · intro h i hi
      rcases Nat.le_one_iff_eq_zero_or_eq_one.mp hs with rfl | rfl
      · simp at h
        simp [h]
      · rw [h, Nat.one_mul]
        exact two_pow_sub_one_div_mod i (n + 1) hi

theorem getD_take32_31 (l : List Nat) (hl : 31 < l.length) :
    (l.take 32).getD 31 0 = l.getD 31 0 := by
  have h31 : 31 < (l.take 32).length := by
    simp
    omega
  rw [List.getD_eq_getElem (l.take 32) 0 h31, List.getD_eq_getElem l 0 hl,
    List.getElem_take]

/-- Bits 32..63 of a 64-bit value all equal bit 31 exactly when the value
lies in the sign-extended range of a signed 32-bit number. -/
theorem high_bits_range (A : Nat) (hA : A < 2 ^ 64) :
    (∀ j, 32 ≤ j → j < 64 → A / 2 ^ j % 2 = A / 2 ^ 31 % 2)
    ↔ (A < 2 ^ 31 ∨ 2 ^ 64 - 2 ^ 31 ≤ A) := by
  have hB : A / 2 ^ 32 < 2 ^ 32 := by omega
  have hsle : A / 2 ^ 31 % 2 ≤ 1 := by omega
  have e31 : (2 : Nat) ^ 31 = 2147483648 := by norm_num
  have e32 : (2 : Nat) ^ 32 = 4294967296 := by norm_num
  have e64 : (2 : Nat) ^ 64 = 18446744073709551616 := by norm_num
  have hiff := bits_all_eq_iff 32 (A / 2 ^ 32) (A / 2 ^ 31 % 2) hB hsle
  constructor
  · intro h
    have hall : ∀ i, i < 32 → A / 2 ^ 32 / 2 ^ i % 2 = A / 2 ^ 31 % 2 := by
      intro i hi
      rw [Nat.div_div_eq_div_mul, ← Nat.pow_add]
      exact h (32 + i) (by omega) (by omega)
    have hfin := hiff.mp hall
    rw [e31, e32] at hfin
    rw [e64] at hA
    rw [e31, e64]
    rcases Nat.mod_two_eq_zero_or_one (A / 2147483648) with hs | hs <;>
      rw [hs] at hfin <;> omega
  · intro h
    rw [e31, e64] at h
    have hBeq : A / 2 ^ 32 = (A / 2 ^ 31 % 2) * (2 ^ 32 - 1) := by
      rw [e64] at hA
      rw [e31, e32]
      omega
    have hall := hiff.mpr hBeq
    intro j hj1 hj2
    have hstep := hall (j - 32) (by omega)
    rw [Nat.div_div_eq_div_mul, ← Nat.pow_add,
      show 32 + (j - 32) = j from by omega] at hstep
    exact hstep

/-- C1 (amended): the multiplier's low-32 result is congruent to the true
signed 32×32 product mod `2^32`, and its overflow flag is 1 exactly when
`signed(rs1) · unsigned(rs2)` — the value the accumulator actually holds,
since `rs1` is sign-extended but `rs2`'s bits are consumed unsigned — lies
outside `[-2^31, 2^31-1]`. -/
theorem mul_overflow_amended (rs1 rs2 : List Nat) (tr : Bool) (m : MulOut)
    (h1 : Valid32 rs1) (h2 : Valid32 rs2) (h : mul_shift_add rs1 rs2 tr = .ok m) :
    Int.ModEq (2 ^ 32) (lval m.rd_bits) (toSigned32 rs1 * toSigned32 rs2)
    ∧ (m.overflow = 1 ↔
        ¬(-(2 ^ 31) ≤ toSigned32 rs1 * (lval rs2 : Int)
          ∧ toSigned32 rs1 * (lval rs2 : Int) < 2 ^ 31)) := by
  have hc : (check32 rs1 && check32 rs2) = true := by
    rw [check32_eq_true.mpr h1, check32_eq_true.mpr h2]; rfl
  rw [mul_shift_add_ok tr hc] at h
  have hm : m = mul_shift_add_core rs1 rs2 tr := by cases h; rfl
  subst hm
  obtain ⟨hal, hab, hav⟩ := mulAcc_invariant rs1 rs2 h1 h2 32 le_rfl
  have hu2 : lval rs2 < 2 ^ 32 := by
    have := lval_lt rs2 h2.2
    rwa [h2.1] at this
  rw [Nat.mod_eq_of_lt hu2] at hav
  set acc := (List.range 32).foldl (mulAccStep (_sign_extend_to_64 rs1) rs2)
    (List.replicate 64 0) with hacc
  have hrd : (mul_shift_add_core rs1 rs2 tr).rd_bits = acc.take 32 := by
    rw [hacc]
    simp only [mul_shift_add_core, mulStep_fold_fst]
  have hov : (mul_shift_add_core rs1 rs2 tr).overflow
      = (if (List.range' 32 32).any
            (fun j => !(acc.getD j 0 == (acc.take 32).getD 31 0)) then 1 else 0) := by
    rw [hacc]
    simp only [mul_shift_add_core, mulStep_fold_fst]
  have hAlt : lval acc < 2 ^ 64 := by
    have := lval_lt acc hab
    rwa [hal] at this
  have hcast : (lval acc : Int)
      = ((lval (_sign_extend_to_64 rs1) : Int) * (lval rs2 : Int)) % 2 ^ 64 := by
    rw [hav]
    push_cast
    ring_nf
  have hPA : (lval acc : Int)
      ≡ toSigned32 rs1 * (lval rs2 : Int) [ZMOD (2 ^ 64)] := by
    rw [hcast]
    exact (Int.emod_emod_of_dvd _ dvd_rfl).trans
      (Int.ModEq.mul_right _ (sign_extend_cong rs1 h1))
  have hu2c : (0 : Int) ≤ (lval rs2 : Int) ∧ (lval rs2 : Int) ≤ 2 ^ 32 :=
    ⟨Int.natCast_nonneg _, by exact_mod_cast hu2.le⟩
  have hPb : -(2 ^ 63) ≤ toSigned32 rs1 * (lval rs2 : Int)
      ∧ toSigned32 rs1 * (lval rs2 : Int) ≤ 2 ^ 63 := by
    obtain ⟨hb1, hb2⟩ := toSigned32_bounds rs1 h1
    constructor <;> nlinarith [hb1, hb2, hu2c.1, hu2c.2]
  have hsign : (acc.take 32).getD 31 0 = lval acc / 2 ^ 31 % 2 := by
    rw [getD_take32_31 acc (by omega), lval_getD acc hab 31]
  have hbitj : ∀ j : Nat, acc.getD j 0 = lval acc / 2 ^ j % 2 :=
    fun j => lval_getD acc hab j
  have hany : ((List.range' 32 32).any
        (fun j => !(acc.getD j 0 == (acc.take 32).getD 31 0)) = true)
      ↔ ¬(∀ j, 32 ≤ j → j < 64 →
          lval acc / 2 ^ j % 2 = lval acc / 2 ^ 31 % 2) := by
    rw [List.any_eq_true]
    constructor
    · rintro ⟨j, hj, hpj⟩ hall
      obtain ⟨hj1, hj2⟩ := List.mem_range'_1.mp hj
      rw [Bool.not_eq_true', beq_eq_false_iff_ne] at hpj
      exact hpj (by rw [hbitj, hsign]; exact hall j hj1 (by omega))
    · intro hnall
      by_contra hno
      push_neg at hno
      apply hnall
      intro j hj1 hj2
      have hmem : j ∈ List.range' 32 32 := List.mem_range'_1.mpr ⟨hj1, by omega⟩
      have hj3 := hno j hmem
      have heq : acc.getD j 0 = (acc.take 32).getD 31 0 := by
        by_contra hne
        exact hj3 (by rw [beq_eq_false_iff_ne.mpr hne]; rfl)
      rw [hbitj, hsign] at heq
      exact heq
  have hcond := high_bits_range (lval acc) hAlt
  have hPAe : (lval acc : Int) % 2 ^ 64
      = (toSigned32 rs1 * (lval rs2 : Int)) % 2 ^ 64 := hPA
  have hAeq : (lval acc : Int)
      = (toSigned32 rs1 * (lval rs2 : Int)) % 2 ^ 64 := by
    omega
  refine ⟨?_, ?_⟩
  · rw [hrd]
    have hlow : lval (acc.take 32) = lval acc % 2 ^ 32 := lval_take acc hab 32
    rw [hlow]
    have e0 : ((lval acc % 2 ^ 32 : Nat) : Int) = (lval acc : Int) % 2 ^ 32 := by
      push_cast
      ring
    rw [e0]
    have e1 : (lval acc : Int) % 2 ^ 32 ≡ (lval acc : Int) [ZMOD (2 ^ 32)] :=
      Int.emod_emod_of_dvd _ dvd_rfl
    have e2 : (lval acc : Int)
        ≡ toSigned32 rs1 * (lval rs2 : Int) [ZMOD (2 ^ 32)] :=
      Int.ModEq.of_dvd (by norm_num) hPA
    have e3 : toSigned32 rs1 * (lval rs2 : Int)
        ≡ toSigned32 rs1 * toSigned32 rs2 [ZMOD (2 ^ 32)] :=
      Int.ModEq.mul_left _ ((toSigned32_cong rs2).symm)
    exact e1.trans (e2.trans e3)
  · rw [hov]
    constructor
    · intro hone
      have hanyT : (List.range' 32 32).any
          (fun j => !(acc.getD j 0 == (acc.take 32).getD 31 0)) = true := by
        by_contra hf
        rw [if_neg hf] at hone
        exact absurd hone (by omega)
      have hnall := hany.mp hanyT
      rw [hcond] at hnall
      intro hPr
      apply hnall
      omega
    · intro hnP
      have hAr : ¬(lval acc < 2 ^ 31 ∨ 2 ^ 64 - 2 ^ 31 ≤ lval acc) := by
        intro hr
        exact hnP (by omega)
      have hanyT : (List.range' 32 32).any
          (fun j => !(acc.getD j 0 == (acc.take 32).getD 31 0)) = true := by
        by_contra hf
        have hC : ∀ j, 32 ≤ j → j < 64 →
            lval acc / 2 ^ j % 2 = lval acc / 2 ^ 31 % 2 := by
          by_contra hC0
          exact hf (hany.mpr hC0)
        exact hAr (hcond.mp hC)
      rw [if_pos hanyT]

/-- C1 counterexample: `multiply(1, 0xFFFFFFFF)` sets `overflow = 1`
although the true signed product `1 × (−1) = −1` fits comfortably in the
signed 32-bit range, refuting the claimed equivalence. -/
theorem mul_overflow_counterexample :
    (mul_shift_add (u32_to_bits 1) (u32_to_bits 0xFFFFFFFF) false).map
      (fun m => m.overflow) = .ok 1
    ∧ toSigned32 (u32_to_bits 1) * toSigned32 (u32_to_bits 0xFFFFFFFF) = -1
    ∧ (-(2 ^ 31) ≤ (-1 : Int) ∧ (-1 : Int) ≤ 2 ^ 31 - 1) :=
  ⟨rfl, by decide, by decide⟩

/-- C1 witness: scenario 3 of the spec, `multiply(12345678, −87654321)`
(second operand pattern `0xFAC6804F`), with the amended theorem applied at
those operands. -/
theorem mul_overflow_amended_witness :
    Valid32 (u32_to_bits 12345678)
    ∧ (mul_shift_add (u32_to_bits 12345678) (u32_to_bits 0xFAC6804F) false).map
        (fun m => (m.rd_bits, m.overflow)) = .ok (u32_to_bits 0xD91D0712, 1)
    ∧ (Int.ModEq (2 ^ 32) (lval (u32_to_bits 0xD91D0712))
          (toSigned32 (u32_to_bits 12345678) * toSigned32 (u32_to_bits 0xFAC6804F))
      ∧ ((1 : Nat) = 1 ↔
          ¬(-(2 ^ 31) ≤ toSigned32 (u32_to_bits 12345678)
              * (lval (u32_to_bits 0xFAC6804F) : Int)
            ∧ toSigned32 (u32_to_bits 12345678)
              * (lval (u32_to_bits 0xFAC6804F) : Int) < 2 ^ 31))) :=
  ⟨by decide, rfl,
    mul_overflow_amended (u32_to_bits 12345678) (u32_to_bits 0xFAC6804F) false
      ⟨u32_to_bits 0xD91D0712, 1, []⟩ (by decide) (by decide) rfl⟩

/-- Bits are zero exactly when the value is zero. -/
theorem _is_zero_iff (l : List Nat) (h : Bitty l) :
    _is_zero l = true ↔ lval l = 0 := by
  rw [lval_eq_zero_iff l h]
  simp [_is_zero, List.all_eq_true]

/-- `_abs_sign` on a valid word: the magnitude part is a valid word whose
value is the absolute value of the word's two's-complement reading, the
reported sign is the sign bit, and the magnitude is non-zero whenever the
word is. -/
theorem _abs_sign_spec (l : List Nat) (h : Valid32 l) :
    (_abs_sign l).1.length = 32 ∧ Bitty (_abs_sign l).1
    ∧ (_abs_sign l).2 = l.getD 31 0
    ∧ toSigned32 l
        = (if l.getD 31 0 = 1 then (-1 : Int) else 1) * (lval (_abs_sign l).1 : Int)
    ∧ (lval l ≠ 0 → 1 ≤ lval (_abs_sign l).1) := by
  have hlt : lval l < 2 ^ 32 := by
    have := lval_lt l h.2
    rwa [h.1] at this
  by_cases hb : l.getD 31 0 = 1
  · have habs : _abs_sign l = (_twos_neg l, 1) := by
      unfold _abs_sign
      rw [if_pos (by rw [hb]; decide)]
    have hge : 2 ^ 31 ≤ lval l := by
      have hbit := lval_getD l h.2 31
      rw [hb] at hbit
      omega
    obtain ⟨ht1, ht2, ht3⟩ := _twos_neg_spec l h.2 (by rw [h.1]; omega)
    rw [h.1] at ht1 ht3
    have ht3' : lval (_twos_neg l) = 2 ^ 32 - lval l := by
      rw [ht3, Nat.mod_eq_of_lt (by omega)]
    have hts : toSigned32 l = (lval l : Int) - 2 ^ 32 := by
      unfold toSigned32
      rw [if_pos hb]
    rw [habs, if_pos hb, hts]
    refine ⟨ht1, ht2, hb.symm, ?_, fun _ => ?_⟩
    · show (lval l : Int) - 2 ^ 32 = -1 * (lval (_twos_neg l) : Int)
      rw [ht3', Nat.cast_sub (by omega)]
      push_cast
      ring
    · show 1 ≤ lval (_twos_neg l)
      rw [ht3']
      omega
  · have hb0 : l.getD 31 0 = 0 := by
      have := getD31_le_one h
      omega
    have habs : _abs_sign l = (l, 0) := by
      unfold _abs_sign
      rw [if_neg (by rw [hb0]; decide)]
    have hts : toSigned32 l = (lval l : Int) := by
      unfold toSigned32
      rw [if_neg hb]
    rw [habs, if_neg hb, hts]
    refine ⟨h.1, h.2, hb0.symm, ?_, fun hnz => ?_⟩
    · show (lval l : Int) = 1 * (lval l : Int)
      ring
    · show 1 ≤ lval l
      omega

/-- One iteration of the restoring divider advances the loop invariant.
With `N` the dividend magnitude, `D = lval dvs_abs` the divisor magnitude
and `(a + 1) + n = 32`, an `(R, Q)` state holding the running remainder
and partial quotient of the top `n` dividend bits steps to the state for
`n + 1` bits. -/
theorem divStepP_invariant (dvs_abs : List Nat) (hvl : dvs_abs.length = 32)
    (hvb : Bitty dvs_abs) (hD : 1 ≤ lval dvs_abs)
    (N a n : Nat) (han : a + 1 + n = 32)
    (R Q : List Nat)
    (hRl : R.length = 33) (hRb : Bitty R) (hQl : Q.length = 32) (hQb : Bitty Q)
    (hRv : lval R = N / 2 ^ (a + 1) % lval dvs_abs)
    (hQv : lval Q = N * 2 ^ n % 2 ^ 32 + N / 2 ^ (a + 1) / lval dvs_abs)
    (hqlt : N / 2 ^ (a + 1) / lval dvs_abs < 2 ^ n) :
    (divStepP (dvs_abs ++ [0]) (R, Q)).1.length = 33
    ∧ Bitty (divStepP (dvs_abs ++ [0]) (R, Q)).1
    ∧ (divStepP (dvs_abs ++ [0]) (R, Q)).2.length = 32
    ∧ Bitty (divStepP (dvs_abs ++ [0]) (R, Q)).2
    ∧ lval (divStepP (dvs_abs ++ [0]) (R, Q)).1 = N / 2 ^ a % lval dvs_abs
    ∧ lval (divStepP (dvs_abs ++ [0]) (R, Q)).2
        = N * 2 ^ (n + 1) % 2 ^ 32 + N / 2 ^ a / lval dvs_abs
    ∧ N / 2 ^ a / lval dvs_abs < 2 ^ (n + 1) := by
  have hDpos : 0 < lval dvs_abs := hD
  have hDlt : lval dvs_abs < 2 ^ 32 := by
    have := lval_lt dvs_abs hvb
    rwa [hvl] at this
  set D := lval dvs_abs with hDdef
  set Nk := N / 2 ^ (a + 1) with hNkdef
  set M := N % 2 ^ (a + 1) with hMdef
  set Na := N / 2 ^ a with hNadef
  set qk := Nk / D with hqkdef
  set r := Nk % D with hrdef
  have hrD : r < D := by
    rw [hrdef]
    exact Nat.mod_lt _ hDpos
  have hb1 : Q.getD 31 0 ≤ 1 := getD31_le_one ⟨hQl, hQb⟩
  have hs31 : (2 : Nat) ^ 31 = 2 ^ a * 2 ^ n := by
    rw [← pow_add]
    congr 1
    omega
  have hs32 : (2 : Nat) ^ 32 = 2 ^ (a + 1) * 2 ^ n := by
    rw [← pow_add]
    congr 1
    omega
  have hs32c : (2 : Nat) ^ 32 = 2 ^ a * 2 ^ (n + 1) := by
    rw [← pow_add]
    congr 1
    omega
  have hNdm : 2 ^ (a + 1) * Nk + M = N := by
    rw [hNkdef, hMdef]
    exact Nat.div_add_mod N (2 ^ (a + 1))
  have hMlt2 : M < 2 ^ a * 2 := by
    have h1 : M < 2 ^ (a + 1) := by
      rw [hMdef]
      exact Nat.mod_lt _ (by positivity)
    rwa [pow_succ] at h1
  have hMa_le : M / 2 ^ a ≤ 1 := by
    have h2 : M / 2 ^ a < 2 := (Nat.div_lt_iff_lt_mul (by positivity)).mpr (by omega)
    omega
  have hNa_eq : Na = 2 * Nk + M / 2 ^ a := by
    have h1 : N = 2 ^ a * (2 * Nk) + M := by
      rw [← hNdm, pow_succ]
      ring
    rw [hNadef, h1, Nat.mul_add_div (by positivity)]
  have hmm1 : N * 2 ^ n % 2 ^ 32 = M * 2 ^ n := by
    rw [hs32, Nat.mul_mod_mul_right, ← hMdef]
  have hQM : lval Q = M * 2 ^ n + qk := by rw [hQv, hmm1]
  have hQdivn : (M * 2 ^ n + qk) / 2 ^ n = M := by
    rw [Nat.mul_comm M (2 ^ n), Nat.mul_add_div (by positivity),
      Nat.div_eq_of_lt hqlt, Nat.add_zero]
  have hq31 : lval Q / 2 ^ 31 = M / 2 ^ a := by
    rw [hQM, hs31, Nat.mul_comm (2 ^ a) (2 ^ n), ← Nat.div_div_eq_div_mul, hQdivn]
  have hmsb : Q.getD 31 0 = M / 2 ^ a := by
    rw [lval_getD Q hQb 31, hq31]
    omega
  have hRtake : lval (R.take 32) = r := by
    rw [lval_take R hRb 32, hRv, Nat.mod_eq_of_lt (by omega)]
  have hR1l : (Q.getD 31 0 :: R.take 32).length = 33 := by
    simp [hRl]
  have hR1b : Bitty (Q.getD 31 0 :: R.take 32) := bitty_cons hb1 (bitty_take hRb 32)
  have hR1v : lval (Q.getD 31 0 :: R.take 32) = M / 2 ^ a + 2 * r := by
    rw [lval_cons, hRtake, hmsb]
  have hD33l : (dvs_abs ++ [0]).length = 33 := by simp [hvl]
  have hD33b : Bitty (dvs_abs ++ [0]) := by
    refine bitty_append hvb ?_
    intro b hb
    simp at hb
    omega
  have hD33v : lval (dvs_abs ++ [0]) = D := by
    rw [lval_append, hDdef]
    simp [lval]
  obtain ⟨hsl, hsb, hsv⟩ := _sub_n_spec (Q.getD 31 0 :: R.take 32) (dvs_abs ++ [0])
    (by rw [hR1l, hD33l]) (by rw [hR1l]; omega) hR1b hD33b
  rw [hR1l] at hsl hsv
  rw [hD33v, hR1v] at hsv
  have hbit32 : (_sub_n (Q.getD 31 0 :: R.take 32) (dvs_abs ++ [0])).1.getD 32 0
      = lval (_sub_n (Q.getD 31 0 :: R.take 32) (dvs_abs ++ [0])).1 / 2 ^ 32 % 2 :=
    lval_getD _ hsb 32
  have hdm2 : D * qk + r = Nk := by
    rw [hqkdef, hrdef]
    exact Nat.div_add_mod Nk D
  have hpow_n : (2 : Nat) ^ (n + 1) = 2 * 2 ^ n := by
    rw [pow_succ]
    ring
  have hn31 : n ≤ 31 := by omega
  have hMM : M % 2 ^ a < 2 ^ a := Nat.mod_lt _ (by positivity)
  have hMa : M % 2 ^ a = N % 2 ^ a := by
    rw [hMdef]
    exact Nat.mod_mod_of_dvd N (pow_dvd_pow 2 (by omega))
  have hqk31 : qk < 2 ^ a * 2 ^ n := by
    rw [← hs31]
    exact Nat.lt_of_lt_of_le hqlt (Nat.pow_le_pow_right (by omega) hn31)
  have hbound : M % 2 ^ a * 2 ^ n + qk < 2 ^ a * 2 ^ n := by
    have h1 : M % 2 ^ a * 2 ^ n + qk < (M % 2 ^ a + 1) * 2 ^ n := by
      rw [Nat.add_mul, Nat.one_mul]
      exact Nat.add_lt_add_left hqlt _
    have h2 : (M % 2 ^ a + 1) * 2 ^ n ≤ 2 ^ a * 2 ^ n := Nat.mul_le_mul_right _ hMM
    omega
  have hq31m : lval Q % 2 ^ 31 = M % 2 ^ a * 2 ^ n + qk := by
    rw [hQM, hs31, Nat.add_mod, Nat.mul_mod_mul_right, Nat.mod_eq_of_lt hqk31,
      Nat.mod_eq_of_lt hbound]
  have hmm2 : N * 2 ^ (n + 1) % 2 ^ 32 = N % 2 ^ a * 2 ^ (n + 1) := by
    rw [hs32c, Nat.mul_mod_mul_right]
  rcases le_or_lt D (M / 2 ^ a + 2 * r) with hge | hlt
  · have ht1v : lval (_sub_n (Q.getD 31 0 :: R.take 32) (dvs_abs ++ [0])).1
        = M / 2 ^ a + 2 * r - D := by
      rw [hsv]
      omega
    have hbit0 : (_sub_n (Q.getD 31 0 :: R.take 32) (dvs_abs ++ [0])).1.getD 32 0 = 0 := by
      rw [hbit32, ht1v]
      omega
    have hstep : divStepP (dvs_abs ++ [0]) (R, Q)
        = ((_sub_n (Q.getD 31 0 :: R.take 32) (dvs_abs ++ [0])).1, 1 :: Q.take 31) := by
      simp only [divStepP]
      rw [hbit0]
      simp
    have hdu : Na / D = 2 * qk + 1 ∧ Na % D = M / 2 ^ a + 2 * r - D := by
      refine (Nat.div_mod_unique hDpos).mpr ⟨?_, by omega⟩
      have hexp : D * (2 * qk + 1) = 2 * (D * qk) + D := by ring
      rw [hexp]
      revert hdm2
      generalize D * qk = P
      intro hdm2
      omega
    rw [hstep]
    refine ⟨hsl, hsb, by simp [hQl], bitty_cons (by omega) (bitty_take hQb 31), ?_, ?_, ?_⟩
    · show lval (_sub_n (Q.getD 31 0 :: R.take 32) (dvs_abs ++ [0])).1 = Na % D
      rw [ht1v]
      exact hdu.2.symm
    · show lval (1 :: Q.take 31) = N * 2 ^ (n + 1) % 2 ^ 32 + Na / D
      rw [lval_cons, lval_take Q hQb 31, hq31m, hdu.1, hmm2, hMa, hpow_n]
      ring
    · show Na / D < 2 ^ (n + 1)
      rw [hdu.1, hpow_n]
      omega
  · have ht1v : lval (_sub_n (Q.getD 31 0 :: R.take 32) (dvs_abs ++ [0])).1
        = M / 2 ^ a + 2 * r + (2 ^ 33 - D) := by
      rw [hsv]
      omega
    have hbit1 : (_sub_n (Q.getD 31 0 :: R.take 32) (dvs_abs ++ [0])).1.getD 32 0 = 1 := by
      rw [hbit32, ht1v]
      omega
    have hstep : divStepP (dvs_abs ++ [0]) (R, Q)
        = (Q.getD 31 0 :: R.take 32, 0 :: Q.take 31) := by
      simp only [divStepP]
      rw [hbit1]
      simp
    have hdu : Na / D = 2 * qk ∧ Na % D = M / 2 ^ a + 2 * r := by
      refine (Nat.div_mod_unique hDpos).mpr ⟨?_, by omega⟩
      have hexp : D * (2 * qk) = 2 * (D * qk) := by ring
      rw [hexp]
      revert hdm2
      generalize D * qk = P
      intro hdm2
      omega
    rw [hstep]
    refine ⟨hR1l, hR1b, by simp [hQl], bitty_cons (by omega) (bitty_take hQb 31), ?_, ?_, ?_⟩
    · show lval (Q.getD 31 0 :: R.take 32) = Na % D
      rw [hR1v]
      exact hdu.2.symm
    · show lval (0 :: Q.take 31) = N * 2 ^ (n + 1) % 2 ^ 32 + Na / D
      rw [lval_cons, lval_take Q hQb 31, hq31m, hdu.1, hmm2, hMa, hpow_n]
      ring
    · show Na / D < 2 ^ (n + 1)
      rw [hdu.1, hpow_n]
      omega

/-- Loop invariant of the restoring divider: after `n ≤ 32` of the 32
iterations on dividend magnitude `dvd_abs` and divisor magnitude
`dvs_abs`, the 33-bit `R` register holds the remainder of the top `n`
dividend bits by the divisor, and `Q` holds the not-yet-consumed dividend
bits alongside the partial quotient. -/
theorem divLoop_invariant (dvd_abs dvs_abs : List Nat)
    (hdl : dvd_abs.length = 32) (hdb : Bitty dvd_abs)
    (hvl : dvs_abs.length = 32) (hvb : Bitty dvs_abs)
    (hD : 1 ≤ lval dvs_abs) :
    ∀ n, n ≤ 32 →
      ((List.range n).foldl (fun rq _ => divStepP (dvs_abs ++ [0]) rq)
          (List.replicate 33 0, dvd_abs)).1.length = 33
      ∧ Bitty ((List.range n).foldl (fun rq _ => divStepP (dvs_abs ++ [0]) rq)
          (List.replicate 33 0, dvd_abs)).1
      ∧ ((List.range n).foldl (fun rq _ => divStepP (dvs_abs ++ [0]) rq)
          (List.replicate 33 0, dvd_abs)).2.length = 32
      ∧ Bitty ((List.range n).foldl (fun rq _ => divStepP (dvs_abs ++ [0]) rq)
          (List.replicate 33 0, dvd_abs)).2
      ∧ lval ((List.range n).foldl (fun rq _ => divStepP (dvs_abs ++ [0]) rq)
          (List.replicate 33 0, dvd_abs)).1
        = lval dvd_abs / 2 ^ (32 - n) % lval dvs_abs
      ∧ lval ((List.range n).foldl (fun rq _ => divStepP (dvs_abs ++ [0]) rq)
          (List.replicate 33 0, dvd_abs)).2
        = lval dvd_abs * 2 ^ n % 2 ^ 32 + lval dvd_abs / 2 ^ (32 - n) / lval dvs_abs
      ∧ lval dvd_abs / 2 ^ (32 - n) / lval dvs_abs < 2 ^ n := by
  have hN : lval dvd_abs < 2 ^ 32 := by
    have := lval_lt dvd_abs hdb
    rwa [hdl] at this
  intro n
  induction n with
  | zero =>
    intro _
    have h0 : lval dvd_abs / 2 ^ (32 - 0) = 0 := by
      rw [show (32 : Nat) - 0 = 32 from rfl]
      exact Nat.div_eq_of_lt hN
    refine ⟨by simp, bitty_replicate _ _ (by omega), by simp [hdl], hdb, ?_, ?_, ?_⟩
    · show lval (List.replicate 33 0) = lval dvd_abs / 2 ^ (32 - 0) % lval dvs_abs
      rw [lval_replicate_zero, h0, Nat.zero_mod]
    · show lval dvd_abs
          = lval dvd_abs * 2 ^ 0 % 2 ^ 32 + lval dvd_abs / 2 ^ (32 - 0) / lval dvs_abs
      rw [pow_zero, Nat.mul_one, Nat.mod_eq_of_lt hN, h0, Nat.zero_div, Nat.add_zero]
    · show lval dvd_abs / 2 ^ (32 - 0) / lval dvs_abs < 2 ^ 0
      rw [h0, Nat.zero_div, pow_zero]
      omega
  | succ n ih =>
    intro hn1
    obtain ⟨ih1, ih2, ih3, ih4, ih5, ih6, ih7⟩ := ih (by omega)
    rw [show 32 - n = (31 - n) + 1 from by omega] at ih5 ih6 ih7
    have hstep := divStepP_invariant dvs_abs hvl hvb hD (lval dvd_abs) (31 - n) n
      (by omega)
      ((List.range n).foldl (fun rq _ => divStepP (dvs_abs ++ [0]) rq)
        (List.replicate 33 0, dvd_abs)).1
      ((List.range n).foldl (fun rq _ => divStepP (dvs_abs ++ [0]) rq)
        (List.replicate 33 0, dvd_abs)).2
      ih1 ih2 ih3 ih4 ih5 ih6 ih7
    rw [List.range_succ, List.foldl_append, List.foldl_cons, List.foldl_nil]
    rw [show 32 - (n + 1) = 31 - n from by omega]
    exact hstep

/-- The division law for `div_restoring_core` on raw (unsigned) word
values: for a non-zero divisor the returned quotient and remainder
satisfy `divisor * quotient + remainder ≡ dividend (mod 2^32)` and
`div_by_zero` is clear. -/
theorem div_core_law (dvd dvs : List Nat) (sgnd tr : Bool)
    (hdv : Valid32 dvd) (hvv : Valid32 dvs) (hnz : lval dvs ≠ 0) :
    (div_restoring_core dvd dvs sgnd tr).flags.div_by_zero = 0
    ∧ Int.ModEq (2 ^ 32)
        ((lval dvs : Int) * (lval (div_restoring_core dvd dvs sgnd tr).q_bits : Int)
          + (lval (div_restoring_core dvd dvs sgnd tr).r_bits : Int))
        (lval dvd : Int) := by
  have hz : ¬ _is_zero dvs = true := by
    rw [_is_zero_iff dvs hvv.2]
    exact hnz
  have hNlt : lval dvd < 2 ^ 32 := by
    have := lval_lt dvd hdv.2
    rwa [hdv.1] at this
  have hDlt : lval dvs < 2 ^ 32 := by
    have := lval_lt dvs hvv.2
    rwa [hvv.1] at this
  cases sgnd with
  | false =>
    simp only [div_restoring_core, Bool.false_and, Bool.false_eq_true, if_false,
      divStep_fold_R, divStep_fold_Q]
    rw [if_neg hz]
    refine ⟨rfl, ?_⟩
    generalize hPF : (List.range 32).foldl (fun rq _ => divStepP (dvs ++ [0]) rq)
      (List.replicate 33 0, dvd) = PF
    obtain ⟨hl1, hb1, hl2, hb2, hvR, hvQ, hq32⟩ :=
      divLoop_invariant dvd dvs hdv.1 hdv.2 hvv.1 hvv.2 (by omega) 32 (le_refl 32)
    rw [hPF] at hl1 hb1 hl2 hb2 hvR hvQ
    rw [show (32 : Nat) - 32 = 0 from rfl, pow_zero, Nat.div_one] at hvR hvQ
    rw [Nat.mul_mod_left, Nat.zero_add] at hvQ
    have hq : lval (_clip32 PF.2) = lval dvd / lval dvs := by
      show lval (PF.2.take 32) = _
      rw [lval_take _ hb2, hvQ,
        Nat.mod_eq_of_lt (Nat.lt_of_le_of_lt (Nat.div_le_self _ _) hNlt)]
    have hr : lval (_clip32 (PF.1.take 32)) = lval dvd % lval dvs := by
      show lval ((PF.1.take 32).take 32) = _
      rw [List.take_take, Nat.min_self, lval_take _ hb1, hvR,
        Nat.mod_eq_of_lt (by have := Nat.mod_lt (lval dvd) (show 0 < lval dvs by omega); omega)]
    rw [hq, hr]
    have hdm := Nat.div_add_mod (lval dvd) (lval dvs)
    have hcast : (lval dvs : Int) * ((lval dvd / lval dvs : Nat) : Int)
        + ((lval dvd % lval dvs : Nat) : Int) = (lval dvd : Int) := by
      exact_mod_cast hdm
    rw [hcast]
  | true =>
    by_cases hsp : (true && (bits_to_u32 dvd == 0x80000000)
        && (bits_to_u32 dvs == 0xFFFFFFFF)) = true
    · obtain ⟨h1, h2⟩ : lval dvd = 0x80000000 ∧ lval dvs = 0xFFFFFFFF := by
        simp only [Bool.true_and, Bool.and_eq_true, beq_iff_eq, bits_to_u32] at hsp
        exact hsp
      simp only [div_restoring_core]
      rw [if_neg hz, if_pos hsp]
      refine ⟨rfl, ?_⟩
      show Int.ModEq (2 ^ 32)
        ((lval dvs : Int) * (lval (u32_to_bits 0x80000000) : Int)
          + (lval (u32_to_bits 0) : Int)) (lval dvd : Int)
      rw [lval_u32_to_bits 0x80000000 (by norm_num), lval_u32_to_bits 0 (by norm_num),
        h1, h2]
      decide
    · simp only [Bool.true_and] at hsp
      simp only [div_restoring_core, Bool.true_and, eq_self_iff_true, if_true,
        divStep_fold_R, divStep_fold_Q]
      rw [if_neg hz, if_neg hsp]
      refine ⟨rfl, ?_⟩
      obtain ⟨hal, hab, has, hav, ham⟩ := _abs_sign_spec dvd hdv
      obtain ⟨hbl, hbb, hbs, hbv, hbm⟩ := _abs_sign_spec dvs hvv
      have hDm : 1 ≤ lval (_abs_sign dvs).1 := hbm hnz
      generalize hPF : (List.range 32).foldl
          (fun rq _ => divStepP ((_abs_sign dvs).1 ++ [0]) rq)
          (List.replicate 33 0, (_abs_sign dvd).1) = PF
      rw [has, hbs]
      obtain ⟨hl1, hb1, hl2, hb2, hvR, hvQ, hq32⟩ :=
        divLoop_invariant (_abs_sign dvd).1 (_abs_sign dvs).1 hal hab hbl hbb hDm
          32 (le_refl 32)
      rw [hPF] at hl1 hb1 hl2 hb2 hvR hvQ
      rw [show (32 : Nat) - 32 = 0 from rfl, pow_zero, Nat.div_one] at hvR hvQ
      rw [Nat.mul_mod_left, Nat.zero_add] at hvQ
      set Nd := lval (_abs_sign dvd).1 with hNd
      set Dv := lval (_abs_sign dvs).1 with hDv
      have hNdlt : Nd < 2 ^ 32 := by
        have := lval_lt _ hab
        rw [hal] at this
        exact this
      have hDvlt : Dv < 2 ^ 32 := by
        have := lval_lt _ hbb
        rw [hbl] at this
        exact this
      have hqlt32 : Nd / Dv < 2 ^ 32 := Nat.lt_of_le_of_lt (Nat.div_le_self _ _) hNdlt
      have hrmlt : Nd % Dv < Dv := Nat.mod_lt _ (by omega)
      have hdm := Nat.div_add_mod Nd Dv
      have hsd := getD31_le_one hdv
      have hsv := getD31_le_one hvv
      have hdvd_cong : Int.ModEq (2 ^ 32) (lval dvd : Int)
          ((if dvd.getD 31 0 = 1 then (-1 : Int) else 1) * (Nd : Int)) := by
        rw [← hav]
        exact (toSigned32_cong dvd).symm
      have hdvs_cong : Int.ModEq (2 ^ 32) (lval dvs : Int)
          ((if dvs.getD 31 0 = 1 then (-1 : Int) else 1) * (Dv : Int)) := by
        rw [← hbv]
        exact (toSigned32_cong dvs).symm
      have hq_cong : Int.ModEq (2 ^ 32)
          ((lval (_clip32 (if (dvd.getD 31 0 ^^^ dvs.getD 31 0 == 1) = true
              then _twos_neg PF.2 else PF.2)) : Nat) : Int)
          ((if (dvd.getD 31 0 ^^^ dvs.getD 31 0 == 1) = true then (-1 : Int) else 1)
            * ((Nd / Dv : Nat) : Int)) := by
        by_cases hqs : (dvd.getD 31 0 ^^^ dvs.getD 31 0 == 1) = true
        · rw [if_pos hqs, if_pos hqs]
          obtain ⟨htl, htb, htv⟩ := _twos_neg_spec PF.2 hb2 (by rw [hl2]; omega)
          rw [hl2] at htl htv
          have hcl : lval (_clip32 (_twos_neg PF.2)) = (2 ^ 32 - Nd / Dv) % 2 ^ 32 := by
            show lval ((_twos_neg PF.2).take 32) = _
            rw [lval_take _ htb, htv, hvQ, Nat.mod_mod_of_dvd _ dvd_rfl]
          rw [hcl]
          show (((2 ^ 32 - Nd / Dv) % 2 ^ 32 : Nat) : Int) % 2 ^ 32
              = (-1 * ((Nd / Dv : Nat) : Int)) % 2 ^ 32
          rw [Int.natCast_mod, Nat.cast_sub (le_of_lt hqlt32)]
          push_cast
          omega
        · rw [if_neg hqs, if_neg hqs]
          have hcl : lval (_clip32 PF.2) = Nd / Dv := by
            show lval (PF.2.take 32) = _
            rw [lval_take _ hb2, hvQ, Nat.mod_eq_of_lt hqlt32]
          rw [hcl, one_mul]
      have hr_cong : Int.ModEq (2 ^ 32)
          ((lval (_clip32 (if ((dvd.getD 31 0 == 1) && !(_is_zero (PF.1.take 32))) = true
              then _twos_neg (PF.1.take 32) else PF.1.take 32)) : Nat) : Int)
          ((if dvd.getD 31 0 = 1 then (-1 : Int) else 1) * ((Nd % Dv : Nat) : Int)) := by
        have hr0l : (PF.1.take 32).length = 32 := by
          rw [List.length_take, hl1]
          omega
        have hr0b : Bitty (PF.1.take 32) := bitty_take hb1 32
        have hr0v : lval (PF.1.take 32) = Nd % Dv := by
          rw [lval_take _ hb1, hvR, Nat.mod_eq_of_lt (by omega)]
        by_cases hrc : ((dvd.getD 31 0 == 1) && !(_is_zero (PF.1.take 32))) = true
        · have hsd1 : dvd.getD 31 0 = 1 := by
            have h := hrc
            simp only [Bool.and_eq_true, beq_iff_eq] at h
            exact h.1
          rw [if_pos hrc, if_pos hsd1]
          obtain ⟨htl, htb, htv⟩ := _twos_neg_spec (PF.1.take 32) hr0b (by rw [hr0l]; omega)
          rw [hr0l] at htl htv
          have hcl : lval (_clip32 (_twos_neg (PF.1.take 32)))
              = (2 ^ 32 - Nd % Dv) % 2 ^ 32 := by
            show lval ((_twos_neg (PF.1.take 32)).take 32) = _
            rw [lval_take _ htb, htv, hr0v, Nat.mod_mod_of_dvd _ dvd_rfl]
          rw [hcl]
          show (((2 ^ 32 - Nd % Dv) % 2 ^ 32 : Nat) : Int) % 2 ^ 32
              = (-1 * ((Nd % Dv : Nat) : Int)) % 2 ^ 32
          rw [Int.natCast_mod, Nat.cast_sub (by omega)]
          push_cast
          omega
        · rw [if_neg hrc]
          have hcl : lval (_clip32 (PF.1.take 32)) = Nd % Dv := by
            show lval ((PF.1.take 32).take 32) = _
            rw [List.take_take, Nat.min_self, hr0v]
          rw [hcl]
          by_cases hsd1 : dvd.getD 31 0 = 1
          · have hz0 : _is_zero (PF.1.take 32) = true := by
              cases h : _is_zero (PF.1.take 32) with
              | true => rfl
              | false => exact absurd (by rw [hsd1, h]; decide) hrc
            have hrm0 : Nd % Dv = 0 := by
              have h := (_is_zero_iff _ hr0b).mp hz0
              rw [hr0v] at h
              exact h
            rw [if_pos hsd1, hrm0]
            show ((0 : Nat) : Int) % 2 ^ 32 = (-1 * ((0 : Nat) : Int)) % 2 ^ 32
            norm_num
          · rw [if_neg hsd1, one_mul]
      have hcast : ((Dv : Nat) : Int) * ((Nd / Dv : Nat) : Int) + ((Nd % Dv : Nat) : Int)
          = ((Nd : Nat) : Int) := by
        exact_mod_cast hdm
      have hfin : ((if dvs.getD 31 0 = 1 then (-1 : Int) else 1) * (Dv : Int))
            * ((if (dvd.getD 31 0 ^^^ dvs.getD 31 0 == 1) = true then (-1 : Int) else 1)
              * ((Nd / Dv : Nat) : Int))
          + (if dvd.getD 31 0 = 1 then (-1 : Int) else 1) * ((Nd % Dv : Nat) : Int)
          = (if dvd.getD 31 0 = 1 then (-1 : Int) else 1) * (Nd : Int) := by
        rcases Nat.le_one_iff_eq_zero_or_eq_one.mp hsd with h | h <;>
          rcases Nat.le_one_iff_eq_zero_or_eq_one.mp hsv with h2 | h2 <;>
            rw [h, h2] <;> norm_num <;> linarith [hcast]
      refine ((hdvs_cong.mul hq_cong).add hr_cong).trans ?_
      rw [hfin]
      exact hdvd_cong.symm

/-- C4: for every valid dividend and valid non-zero divisor, in both the
signed and the unsigned mode, the quotient and remainder returned by
`div_restoring` satisfy `divisor * quotient + remainder ≡ dividend
(mod 2^32)` with every word read under the operation's signed or unsigned
convention, and the `div_by_zero` flag is 0. -/
theorem div_restoring_law (dvd dvs : List Nat) (sgnd tr : Bool) (d : DivOut)
    (hdv : Valid32 dvd) (hvv : Valid32 dvs) (hnz : lval dvs ≠ 0)
    (hok : div_restoring dvd dvs sgnd tr = .ok d) :
    Int.ModEq (2 ^ 32)
      (interp sgnd dvs * interp sgnd d.q_bits + interp sgnd d.r_bits)
      (interp sgnd dvd)
    ∧ d.flags.div_by_zero = 0 := by
  have hc : (check32 dvd && check32 dvs) = true := by
    rw [check32_eq_true.mpr hdv, check32_eq_true.mpr hvv]
    rfl
  rw [div_restoring_ok sgnd tr hc] at hok
  have hd : d = div_restoring_core dvd dvs sgnd tr := by
    injection hok with h
    exact h.symm
  subst hd
  obtain ⟨hf, hm⟩ := div_core_law dvd dvs sgnd tr hdv hvv hnz
  refine ⟨?_, hf⟩
  have hx : ∀ l : List Nat, Int.ModEq (2 ^ 32) (interp sgnd l) ((lval l : Int)) := by
    intro l
    unfold interp
    split
    · exact toSigned32_cong l
    · exact Int.ModEq.refl _
  exact (((hx dvs).mul (hx (div_restoring_core dvd dvs sgnd tr).q_bits)).add
    (hx (div_restoring_core dvd dvs sgnd tr).r_bits)).trans (hm.trans (hx dvd).symm)

/-- C4 witness: scenario 4 — dividing the pattern of −7 by that of 3 in
signed mode yields quotient `0xFFFFFFFE`, remainder `0xFFFFFFFF`, clear
flags and no trace, and the division law holds for this instance. -/
theorem div_restoring_law_witness :
    div_restoring (u32_to_bits 0xFFFFFFF9) (u32_to_bits 3) true false
      = .ok ⟨u32_to_bits 0xFFFFFFFE, u32_to_bits 0xFFFFFFFF, ⟨0, 0⟩, []⟩
    ∧ Int.ModEq (2 ^ 32)
        (interp true (u32_to_bits 3) * interp true (u32_to_bits 0xFFFFFFFE)
          + interp true (u32_to_bits 0xFFFFFFFF))
        (interp true (u32_to_bits 0xFFFFFFF9)) := by
  have hok : div_restoring (u32_to_bits 0xFFFFFFF9) (u32_to_bits 3) true false
      = .ok ⟨u32_to_bits 0xFFFFFFFE, u32_to_bits 0xFFFFFFFF, ⟨0, 0⟩, []⟩ := by rfl
  exact ⟨hok, (div_restoring_law (u32_to_bits 0xFFFFFFF9) (u32_to_bits 3) true false
    ⟨u32_to_bits 0xFFFFFFFE, u32_to_bits 0xFFFFFFFF, ⟨0, 0⟩, []⟩
    (by decide) (by decide) (by decide) hok).1⟩

/-- Host NaNs propagate through add/sub/mul: the result is NaN whenever an
operand is, so the disjunction tested by `_flags_from_result` collapses to
NaN-ness of the result. -/
theorem isNan_or_collapse (x y : EF) :
    ((isNanEF x || isNanEF y || isNanEF (addEF x y)) = isNanEF (addEF x y))
    ∧ ((isNanEF x || isNanEF y || isNanEF (subEF x y)) = isNanEF (subEF x y))
    ∧ ((isNanEF x || isNanEF y || isNanEF (mulEF x y)) = isNanEF (mulEF x y)) := by
  cases x <;> cases y <;> simp [addEF, subEF, mulEF, isNanEF]

/-- C3 counterexample: `fadd` on a NaN first operand returns `invalid = 1`,
although the claim says an operation whose input is NaN reports
`invalid = 0`. -/
theorem fpu_invalid_counterexample :
    (fadd_f32 (u32_to_bits 0x7FC00001) (u32_to_bits 0x3F800000)).map
        (fun o => o.flags.invalid) = .ok 1
    ∧ isNanEF (unpackVal (u32_to_bits 0x7FC00001)) = true := ⟨rfl, rfl⟩

/-- C3 (amended): whenever fadd/fsub/fmul returns (rather than raises),
the `invalid` flag is 1 iff the computed result value is NaN —
equivalently, iff some input or the result is NaN; a NaN input therefore
reports `invalid = 1`, not 0. -/
theorem fpu_invalid_amended (a b : List Nat) :
    (∀ o, fadd_f32 a b = .ok o →
      o.flags.invalid
        = if isNanEF (addEF (unpackVal a) (unpackVal b)) then 1 else 0)
    ∧ (∀ o, fsub_f32 a b = .ok o →
      o.flags.invalid
        = if isNanEF (subEF (unpackVal a) (unpackVal b)) then 1 else 0)
    ∧ (∀ o, fmul_f32 a b = .ok o →
      o.flags.invalid
        = if isNanEF (mulEF (unpackVal a) (unpackVal b)) then 1 else 0) := by
  refine ⟨?_, ?_, ?_⟩
  · intro o hok
    simp only [fadd_f32] at hok
    split at hok
    · split at hok
      · cases hok
      · injection hok with h
        rw [← h]
        show (if (isNanEF (unpackVal a) || isNanEF (unpackVal b)
              || isNanEF (addEF (unpackVal a) (unpackVal b))) = true then 1 else 0)
          = if isNanEF (addEF (unpackVal a) (unpackVal b)) = true then 1 else 0
        rw [(isNan_or_collapse (unpackVal a) (unpackVal b)).1]
    · cases hok
  · intro o hok
    simp only [fsub_f32] at hok
    split at hok
    · split at hok
      · cases hok
      · injection hok with h
        rw [← h]
        show (if (isNanEF (unpackVal a) || isNanEF (unpackVal b)
              || isNanEF (subEF (unpackVal a) (unpackVal b))) = true then 1 else 0)
          = if isNanEF (subEF (unpackVal a) (unpackVal b)) = true then 1 else 0
        rw [(isNan_or_collapse (unpackVal a) (unpackVal b)).2.1]
    · cases hok
  · intro o hok
    simp only [fmul_f32] at hok
    split at hok
    · split at hok
      · cases hok
      · injection hok with h
        rw [← h]
        show (if (isNanEF (unpackVal a) || isNanEF (unpackVal b)
              || isNanEF (mulEF (unpackVal a) (unpackVal b))) = true then 1 else 0)
          = if isNanEF (mulEF (unpackVal a) (unpackVal b)) = true then 1 else 0
        rw [(isNan_or_collapse (unpackVal a) (unpackVal b)).2.2]
    · cases hok

/-- C3 witness: `fadd` of the NaN pattern `0x7FC00001` and the pattern of
`1.0` returns the canonical quiet-NaN pattern with `invalid = 1`, as the
amended NaN-result characterisation prescribes. -/
theorem fpu_invalid_amended_witness :
    fadd_f32 (u32_to_bits 0x7FC00001) (u32_to_bits 0x3F800000)
      = .ok ⟨u32_to_bits 0x7FC00000, ⟨0, 0, 1⟩,
          [⟨"add", 2143289345, 1065353216, 2143289344⟩]⟩
    ∧ (FFlags.mk 0 0 1).invalid
        = if isNanEF (addEF (unpackVal (u32_to_bits 0x7FC00001))
            (unpackVal (u32_to_bits 0x3F800000))) then 1 else 0 := by
  have hok : fadd_f32 (u32_to_bits 0x7FC00001) (u32_to_bits 0x3F800000)
      = .ok ⟨u32_to_bits 0x7FC00000, ⟨0, 0, 1⟩,
          [⟨"add", 2143289345, 1065353216, 2143289344⟩]⟩ := by rfl
  exact ⟨hok,
    (fpu_invalid_amended (u32_to_bits 0x7FC00001) (u32_to_bits 0x3F800000)).1
      ⟨u32_to_bits 0x7FC00000, ⟨0, 0, 1⟩,
        [⟨"add", 2143289345, 1065353216, 2143289344⟩]⟩ hok⟩

/-- C2: `fmul` on the binary32 patterns of `1e38` (`0x7E967699`) and
`10.0` (`0x41200000`) does not return an infinity-classified pattern with
`overflow = 1`: packing the out-of-range host product raises, modelled as
the `Except.error` carrying the `OverflowError` of `struct.pack('!f', ...)`. -/
theorem fmul_overflow_raises :
    fmul_f32 (u32_to_bits 0x7E967699) (u32_to_bits 0x41200000)
      = .error "OverflowError: float too large to pack with f format" := by
  have hA : unpackVal (u32_to_bits 0x7E967699)
      = .fin ((9860761 : ℚ) * (2 : ℚ) ^ ((103 : Int))) := by
    have hu : bits_to_u32 (u32_to_bits 0x7E967699) = 0x7E967699 := by decide
    simp only [unpackVal, hu]
    rw [show ((0x7E967699 : Nat) >>> 23) &&& 0xFF = 253 from by decide,
      show ((0x7E967699 : Nat) >>> 31) &&& 1 = 0 from by decide,
      show ((0x7E967699 : Nat)) &&& 0x7FFFFF = 1472153 from by decide]
    rw [if_neg (by decide), if_neg (by decide)]
    norm_num
  have hB : unpackVal (u32_to_bits 0x41200000) = .fin (10 : ℚ) := by
    have hu : bits_to_u32 (u32_to_bits 0x41200000) = 0x41200000 := by decide
    simp only [unpackVal, hu]
    rw [show ((0x41200000 : Nat) >>> 23) &&& 0xFF = 130 from by decide,
      show ((0x41200000 : Nat) >>> 31) &&& 1 = 0 from by decide,
      show ((0x41200000 : Nat)) &&& 0x7FFFFF = 2097152 from by decide]
    rw [if_neg (by decide), if_neg (by decide)]
    norm_num
  have hmul : mulEF (unpackVal (u32_to_bits 0x7E967699)) (unpackVal (u32_to_bits 0x41200000))
      = .fin ((49303805 : ℚ) * (2 : ℚ) ^ ((104 : Int))) := by
    rw [hA, hB]
    show EF.fin ((9860761 : ℚ) * (2 : ℚ) ^ ((103 : Int)) * 10) = _
    norm_num
  have hpos : (0 : ℚ) < (49303805 : ℚ) * (2 : ℚ) ^ ((104 : Int)) := by positivity
  have hlog : Int.log 2 ((49303805 : ℚ) * (2 : ℚ) ^ ((104 : Int))) = 129 := by
    have hlb : (129 : ℤ) ≤ Int.log 2 ((49303805 : ℚ) * (2 : ℚ) ^ ((104 : Int))) := by
      have h1 : Int.log 2 (((2 : ℕ) : ℚ) ^ (129 : ℤ)) = 129 := Int.log_zpow (by norm_num) 129
      have h2 := @Int.log_mono_right ℚ _ _ 2 _ _
        (show (0 : ℚ) < ((2 : ℕ) : ℚ) ^ (129 : ℤ) by positivity)
        (show ((2 : ℕ) : ℚ) ^ (129 : ℤ) ≤ (49303805 : ℚ) * (2 : ℚ) ^ ((104 : Int)) by
          push_cast
          norm_num)
      rw [h1] at h2
      exact h2
    have hub : Int.log 2 ((49303805 : ℚ) * (2 : ℚ) ^ ((104 : Int))) < 130 := by
      by_contra hcon
      push_neg at hcon
      have h1 : ((2 : ℕ) : ℚ) ^ (130 : ℤ)
          ≤ ((2 : ℕ) : ℚ) ^ (Int.log 2 ((49303805 : ℚ) * (2 : ℚ) ^ ((104 : Int)))) :=
        zpow_le_zpow_right₀ (by norm_num) hcon
      have h2 : ((2 : ℕ) : ℚ) ^ (Int.log 2 ((49303805 : ℚ) * (2 : ℚ) ^ ((104 : Int))))
          ≤ (49303805 : ℚ) * (2 : ℚ) ^ ((104 : Int)) :=
        Int.zpow_log_le_self (by norm_num) hpos
      have h3 : (49303805 : ℚ) * (2 : ℚ) ^ ((104 : Int)) < ((2 : ℕ) : ℚ) ^ (130 : ℤ) := by
        push_cast
        norm_num
      linarith
    omega
  have habs : |(49303805 : ℚ) * (2 : ℚ) ^ ((104 : Int))|
      = (49303805 : ℚ) * (2 : ℚ) ^ ((104 : Int)) := abs_of_pos hpos
  have hrne : rneInt ((49303805 : ℚ) * (2 : ℚ) ^ ((104 : Int)) / 2 ^ ((106 : Int)))
      = 12325951 := by
    have hdiv : (49303805 : ℚ) * (2 : ℚ) ^ ((104 : Int)) / 2 ^ ((106 : Int))
        = (49303805 : ℚ) / 4 := by
      norm_num
    rw [hdiv]
    simp only [rneInt]
    rw [show Int.floor ((49303805 : ℚ) / 4) = 12325951 from by norm_num]
    rw [if_pos (by norm_num)]
  have hround : roundF32 ((49303805 : ℚ) * (2 : ℚ) ^ ((104 : Int)))
      = (12325951 : ℚ) * (2 : ℚ) ^ ((106 : Int)) := by
    simp only [roundF32]
    rw [habs, hlog]
    rw [show max ((129 : Int) - 23) (-149) = 106 from by decide]
    rw [hrne]
    norm_num
  have hpack : packHostBits (.fin ((49303805 : ℚ) * (2 : ℚ) ^ ((104 : Int))))
      = .error "OverflowError: float too large to pack with f format" := by
    simp only [packHostBits]
    rw [if_neg (by positivity : ¬((49303805 : ℚ) * (2 : ℚ) ^ ((104 : Int)) = 0))]
    rw [hround]
    have hle : (2 : ℚ) ^ (128 : Nat) ≤ |(12325951 : ℚ) * (2 : ℚ) ^ ((106 : Int))| := by
      rw [show |(12325951 : ℚ) * (2 : ℚ) ^ ((106 : Int))|
          = (12325951 : ℚ) * (2 : ℚ) ^ ((106 : Int)) from abs_of_pos (by positivity)]
      norm_num
    rw [if_pos hle]
  simp only [fmul_f32]
  rw [if_pos (by decide)]
  rw [hmul, hpack]

end Midterm440
